import Mathlib

/-!
Verification of the Rusty-Bit BitTorrent client (Rust) against its
natural-language specification.  The Rust sources are shallowly embedded:
bytes are `List Nat` (each element a byte value), machine integers are `Nat`
with explicit bounds where overflow matters, fallible code returns `Option`,
and Rust panics are collapsed into failure outcomes (`none`, or an explicit
`panicked` flag where a claim distinguishes panics from recoverable errors).
-/

namespace RustyBit

/-! ## Bencode data model (src/download.rs)

`BencodeType` from src/download.rs.  The Rust `String` payload of `Bstring`
is represented by its UTF-8 byte sequence; `Bmap` is the
`BTreeMap<Box<BencodeType>, BencodeType>` represented as an association list
kept sorted by the derived `Ord`, which is the iteration order of a
`BTreeMap`; `Bint(u64)` is a `Nat` (parsing enforces the 64-bit bound). -/

inductive BencodeType where
  | Bstring : List Nat → BencodeType
  | Bvec : List BencodeType → BencodeType
  | Bmap : List (BencodeType × BencodeType) → BencodeType
  | Bint : Nat → BencodeType

/-- Lexicographic comparison of byte sequences, as the derived `Ord` of
Rust `String` (which compares the underlying bytes). -/
def cmpBytes : List Nat → List Nat → Ordering
  | [], [] => .eq
  | [], _ :: _ => .lt
  | _ :: _, [] => .gt
  | a :: as, b :: bs =>
    match compare a b with
    | .eq => cmpBytes as bs
    | o => o

/-- Discriminant rank of the derived `Ord` on the Rust enum `BencodeType`:
variants compare in declaration order `Bstring < Bvec < Bmap < Bint`. -/
def benRank : BencodeType → Nat
  | .Bstring _ => 0
  | .Bvec _ => 1
  | .Bmap _ => 2
  | .Bint _ => 3

mutual

/-- The derived `Ord` on `BencodeType`: discriminant order first, then the
fields.  `Vec` and `BTreeMap` compare their elements lexicographically and
then by length, which is the derived behaviour in Rust. -/
def benCompare : BencodeType → BencodeType → Ordering
  | .Bstring a, .Bstring b => cmpBytes a b
  | .Bvec a, .Bvec b => benCompareList a b
  | .Bmap a, .Bmap b => benComparePairs a b
  | .Bint a, .Bint b => compare a b
  | a, b => compare (benRank a) (benRank b)

def benCompareList : List BencodeType → List BencodeType → Ordering
  | [], [] => .eq
  | [], _ :: _ => .lt
  | _ :: _, [] => .gt
  | a :: as, b :: bs =>
    match benCompare a b with
    | .eq => benCompareList as bs
    | o => o

def benComparePairs :
    List (BencodeType × BencodeType) → List (BencodeType × BencodeType) → Ordering
  | [], [] => .eq
  | [], _ :: _ => .lt
  | _ :: _, [] => .gt
  | (ka, va) :: as, (kb, vb) :: bs =>
    match benCompare ka kb with
    | .eq =>
      match benCompare va vb with
      | .eq => benComparePairs as bs
      | o => o
    | o => o

end

/-- `BTreeMap::insert` on the sorted association-list representation: the
entry is placed at its ordered position; when an equal key is present the
stored value is replaced (the stored key is kept, as `BTreeMap` does). -/
def btreeInsert (k v : BencodeType) :
    List (BencodeType × BencodeType) → List (BencodeType × BencodeType)
  | [] => [(k, v)]
  | (k2, v2) :: rest =>
    match benCompare k k2 with
    | .lt => (k, v) :: (k2, v2) :: rest
    | .eq => (k2, v) :: rest
    | .gt => (k2, v2) :: btreeInsert k v rest

/-! ## UTF-8 lossy conversion

`String::from_utf8_lossy` at the byte level: maximal valid UTF-8 sequences
are copied through, every maximal invalid subpart (per the std validator:
one byte for a bad lead or a bad second byte, two or three bytes when a
longer sequence breaks later, the whole tail when input ends early) is
replaced by the three bytes EF BF BD of U+FFFD. -/

/-- The UTF-8 replacement character U+FFFD as bytes. -/
def rep : List Nat := [0xEF, 0xBF, 0xBD]

/-- Is `b` a UTF-8 continuation byte. -/
def isCont (b : Nat) : Bool := 0x80 ≤ b && b ≤ 0xBF

/-- Valid range of the second byte of a UTF-8 sequence with lead `b0`,
per the std validator special cases for E0, ED, F0 and F4. -/
def validSecond (b0 b1 : Nat) : Bool :=
  if b0 = 0xE0 then 0xA0 ≤ b1 && b1 ≤ 0xBF
  else if b0 = 0xED then 0x80 ≤ b1 && b1 ≤ 0x9F
  else if b0 = 0xF0 then 0x90 ≤ b1 && b1 ≤ 0xBF
  else if b0 = 0xF4 then 0x80 ≤ b1 && b1 ≤ 0x8F
  else isCont b1

def utf8Lossy : List Nat → List Nat
  | [] => []
  | b0 :: t0 =>
    if b0 < 0x80 then b0 :: utf8Lossy t0
    else if 0xC2 ≤ b0 && b0 ≤ 0xDF then
      match t0 with
      | [] => rep
      | b1 :: t1 =>
        if isCont b1 then b0 :: b1 :: utf8Lossy t1
        else rep ++ utf8Lossy (b1 :: t1)
    else if 0xE0 ≤ b0 && b0 ≤ 0xEF then
      match t0 with
      | [] => rep
      | b1 :: t1 =>
        if validSecond b0 b1 then
          match t1 with
          | [] => rep
          | b2 :: t2 =>
            if isCont b2 then b0 :: b1 :: b2 :: utf8Lossy t2
            else rep ++ utf8Lossy (b2 :: t2)
        else rep ++ utf8Lossy (b1 :: t1)
    else if 0xF0 ≤ b0 && b0 ≤ 0xF4 then
      match t0 with
      | [] => rep
      | b1 :: t1 =>
        if validSecond b0 b1 then
          match t1 with
          | [] => rep
          | b2 :: t2 =>
            if isCont b2 then
              match t2 with
              | [] => rep
              | b3 :: t3 =>
                if isCont b3 then b0 :: b1 :: b2 :: b3 :: utf8Lossy t3
                else rep ++ utf8Lossy (b3 :: t3)
            else rep ++ utf8Lossy (b2 :: t2)
        else rep ++ utf8Lossy (b1 :: t1)
    else rep ++ utf8Lossy t0

/-! ## Decimal parsing (str::parse) -/

/-- Is `b` an ASCII digit byte, as `char::is_ascii_digit`. -/
def isDigitByte (b : Nat) : Bool := 48 ≤ b && b ≤ 57

/-- Numeric value of a big-endian ASCII digit byte string. -/
def digitsVal (l : List Nat) : Nat := l.foldl (fun acc b => 10 * acc + (b - 48)) 0

/-- Models `str::parse::<u64>` (and `parse::<usize>` on the 64-bit target):
an optional leading plus sign, then one or more ASCII digits, and the value
must fit in 64 bits; anything else is an error. -/
def parseU64 (s : List Nat) : Option Nat :=
  let digits := if s.head? = some 43 then s.tail else s
  if !digits.isEmpty && digits.all isDigitByte && digitsVal digits < 2 ^ 64 then
    some (digitsVal digits)
  else none

/-- Scans the bytes before the first occurrence of `stop`, as the
`while data_char != stop` loops of the decoder; `none` when `stop` never
occurs (in Rust the index then runs past the end and the program panics). -/
def takeUntilByte (stop : Nat) : List Nat → Option (List Nat)
  | [] => none
  | b :: rest =>
    if b = stop then some []
    else
      match takeUntilByte stop rest with
      | some pre => some (b :: pre)
      | none => none

/-! ## The bencode decoder (src/download.rs, recursive_bencode_decoder)

The Rust function keeps the full buffer `data` and an `index`, and recurses
on `data[index + offset..]`.  The model passes that suffix directly and
carries the absolute `index` alongside, which is the same data
(`remaining = data[index..]`).  Every error and every panic (out-of-range
index or slice) is `none`.  The loops of the `l` and `d` branches recurse,
so all three functions take fuel; fuel exhaustion is also `none`. -/

mutual

def decodeBen : Nat → List Nat → Option (BencodeType × Nat)
  | 0, _ => none
  | fuel + 1, data =>
    match data.head? with
    | none => none
    | some c =>
      if isDigitByte c then
        match takeUntilByte 58 data with
        | none => none
        | some lenBytes =>
          match parseU64 lenBytes with
          | none => none
          | some string_len =>
            if lenBytes.length + 1 + string_len ≤ data.length then
              some (.Bstring (utf8Lossy ((data.drop (lenBytes.length + 1)).take string_len)),
                string_len + lenBytes.length + 1)
            else none
      else if c = 105 then
        match takeUntilByte 101 data.tail with
        | none => none
        | some buffer =>
          match parseU64 buffer with
          | none => none
          | some n => some (.Bint n, buffer.length + 2)
      else if c = 108 then
        match decodeListLoop fuel data 0 [] with
        | none => none
        | some (ben_vec, idx) => some (.Bvec ben_vec, idx + 1)
      else if c = 100 then
        match decodeDictLoop fuel data 0 true [] with
        | none => none
        | some (ben_map, idx) => some (.Bmap ben_map, idx + 1)
      else none

/-- The `while data[index] as char != 'e'` loop of the `l` branch.
`remaining` is `data[index..]`; the offset is 1 exactly when the element
vector is still empty (the loop is then still on the byte `l`). -/
def decodeListLoop :
    Nat → List Nat → Nat → List BencodeType → Option (List BencodeType × Nat)
  | 0, _, _, _ => none
  | fuel + 1, remaining, index, ben_vec =>
    match remaining.head? with
    | none => none
    | some b =>
      if b = 101 then some (ben_vec, index)
      else
        match decodeBen fuel (remaining.drop (if ben_vec.isEmpty then 1 else 0)) with
        | none => none
        | some (list_element, len_consumed) =>
          decodeListLoop fuel
            (remaining.drop (if ben_vec.isEmpty then len_consumed + 1 else len_consumed))
            (index + (if ben_vec.isEmpty then len_consumed + 1 else len_consumed))
            (ben_vec ++ [list_element])

/-- The `while data[index] as char != 'e'` loop of the `d` branch, with the
two `extract_btype` calls inlined: a key at offset 1 on the first iteration
(`send_data_from_next_index`) and 0 afterwards, then a value at offset 0. -/
def decodeDictLoop :
    Nat → List Nat → Nat → Bool → List (BencodeType × BencodeType) →
    Option (List (BencodeType × BencodeType) × Nat)
  | 0, _, _, _, _ => none
  | fuel + 1, remaining, index, send_from_next, ben_map =>
    match remaining.head? with
    | none => none
    | some b =>
      if b = 101 then some (ben_map, index)
      else
        match decodeBen fuel (remaining.drop (if send_from_next then 1 else 0)) with
        | none => none
        | some (key, kc) =>
          match decodeBen fuel (remaining.drop ((if send_from_next then 1 else 0) + kc)) with
          | none => none
          | some (value, vc) =>
            decodeDictLoop fuel (remaining.drop ((if send_from_next then 1 else 0) + kc + vc))
              (index + (if send_from_next then 1 else 0) + kc + vc) false
              (btreeInsert key value ben_map)

end

/-! ## Canonical bencode encoder and canonical values

The repository has no encoder for `BencodeType` (the round-trip claim pairs
the decoder above with canonical bencode encoding, which the spec defines).
-/

/-- Big-endian ASCII decimal digits of `n`, without leading zeros
(`[48]`, the digit zero, for `n = 0`). -/
def natToDecBytes (n : Nat) : List Nat :=
  if n = 0 then [48] else (Nat.digits 10 n).reverse.map (· + 48)

mutual

/-- Modelled from the spec: the canonical bencode encoder (section 4.1
Encode), absent from the sources: strings as `<len>:<bytes>`, integers as
`i<decimal>e` without leading zeros, lists as `l…e`, dictionaries as `d…e`
with entries in key order. -/
def encodeB : BencodeType → List Nat
  | .Bstring s => natToDecBytes s.length ++ 58 :: s
  | .Bint n => 105 :: (natToDecBytes n ++ [101])
  | .Bvec l => 108 :: (encListB l ++ [101])
  | .Bmap m => 100 :: (encPairsB m ++ [101])

def encListB : List BencodeType → List Nat
  | [] => []
  | e :: es => encodeB e ++ encListB es

def encPairsB : List (BencodeType × BencodeType) → List Nat
  | [] => []
  | (k, v) :: ps => encodeB k ++ encodeB v ++ encPairsB ps

end

/-- All later keys compare strictly greater than `k` (pairwise form of
strictly increasing key order). -/
def keyLtAllB (k : BencodeType) : List (BencodeType × BencodeType) → Bool
  | [] => true
  | (k2, _) :: ps => benCompare k k2 == .lt && keyLtAllB k ps

/-- Keys pairwise strictly increasing in the derived order. -/
def keysSortedB : List (BencodeType × BencodeType) → Bool
  | [] => true
  | (k, _) :: ps => keyLtAllB k ps && keysSortedB ps

mutual

/-- A value the decoder can reproduce exactly: strings are valid UTF-8
(fixed by the lossy conversion) and of 64-bit length, integers fit in
64 bits, lists and dictionaries are nonempty (the decoder rejects `le` and
`de`), and dictionary keys are pairwise strictly increasing. -/
def CanonicalB : BencodeType → Bool
  | .Bstring s => (utf8Lossy s == s) && decide (s.length < 2 ^ 64)
  | .Bint n => decide (n < 2 ^ 64)
  | .Bvec l => !l.isEmpty && canonListB l
  | .Bmap m => !m.isEmpty && keysSortedB m && canonPairsB m

def canonListB : List BencodeType → Bool
  | [] => true
  | e :: es => CanonicalB e && canonListB es

def canonPairsB : List (BencodeType × BencodeType) → Bool
  | [] => true
  | (k, v) :: ps => CanonicalB k && CanonicalB v && canonPairsB ps

end

mutual

/-- Fuel sufficient for `decodeBen` to decode the encoding of a value. -/
def benFuel : BencodeType → Nat
  | .Bstring _ => 1
  | .Bint _ => 1
  | .Bvec l => 1 + benFuelList l
  | .Bmap m => 1 + benFuelPairs m

def benFuelList : List BencodeType → Nat
  | [] => 1
  | e :: es => 1 + benFuel e + benFuelList es

def benFuelPairs : List (BencodeType × BencodeType) → Nat
  | [] => 1
  | (k, v) :: ps => 1 + benFuel k + benFuel v + benFuelPairs ps

end

/-! ## SHA-1 (the sha1 crate used by calc_sha1_hash, src/download/torrent.rs) -/

/-- Truncation to 32 bits. -/
def w32 (n : Nat) : Nat := n % 2 ^ 32

/-- Left rotation of a 32-bit word by `b` bits. -/
def rotl (b n : Nat) : Nat := w32 ((n <<< b) ||| (n >>> (32 - b)))

/-- The `k` bytes of `n`, big-endian. -/
def beBytes : Nat → Nat → List Nat
  | 0, _ => []
  | k + 1, n => ((n >>> (8 * k)) % 256) :: beBytes k n

/-- SHA-1 padding: the byte 0x80, zeros to 56 mod 64, then the bit length
as 8 big-endian bytes. -/
def sha1Pad (msg : List Nat) : List Nat :=
  msg ++ 0x80 :: (List.replicate ((55 + 64 - msg.length % 64) % 64) 0 ++
    beBytes 8 (8 * msg.length))

/-- Groups of four bytes into big-endian 32-bit words. -/
def toWords : List Nat → List Nat
  | b0 :: b1 :: b2 :: b3 :: rest =>
    (((b0 * 256 + b1) * 256 + b2) * 256 + b3) :: toWords rest
  | _ => []

/-- Message-schedule extension by `k` further words. -/
def sha1Extend : Nat → List Nat → List Nat
  | 0, ws => ws
  | k + 1, ws =>
    sha1Extend k (ws ++ [rotl 1 ((ws.getD (ws.length - 3) 0) ^^^
      (ws.getD (ws.length - 8) 0) ^^^ (ws.getD (ws.length - 14) 0) ^^^
      (ws.getD (ws.length - 16) 0))])

/-- Round function of round `t`. -/
def sha1F (t b c d : Nat) : Nat :=
  if t < 20 then (b &&& c) ||| ((b ^^^ 0xFFFFFFFF) &&& d)
  else if t < 40 then b ^^^ c ^^^ d
  else if t < 60 then (b &&& c) ||| (b &&& d) ||| (c &&& d)
  else b ^^^ c ^^^ d

/-- Round constant of round `t`. -/
def sha1K (t : Nat) : Nat :=
  if t < 20 then 0x5A827999
  else if t < 40 then 0x6ED9EBA1
  else if t < 60 then 0x8F1BBCDC
  else 0xCA62C1D6

/-- The 80 compression rounds over the scheduled words. -/
def sha1Rounds : List Nat → Nat → Nat × Nat × Nat × Nat × Nat → Nat × Nat × Nat × Nat × Nat
  | [], _, st => st
  | w :: ws, t, (a, b, c, d, e) =>
    sha1Rounds ws (t + 1)
      (w32 (rotl 5 a + sha1F t b c d + e + sha1K t + w), a, rotl 30 b, c, d)

/-- Processes the padded message 64 bytes at a time; the fuel counts the
blocks still allowed and is structurally consumed (one unit per 64-byte
block, so any fuel at least the byte count is enough). -/
def sha1Blocks : Nat → List Nat → Nat × Nat × Nat × Nat × Nat → Nat × Nat × Nat × Nat × Nat
  | _, [], h => h
  | 0, _ :: _, h => h
  | fuel + 1, x :: rest, (h0, h1, h2, h3, h4) =>
    let ws := sha1Extend 64 (toWords ((x :: rest).take 64))
    let (a, b, c, d, e) := sha1Rounds ws 0 (h0, h1, h2, h3, h4)
    sha1Blocks fuel ((x :: rest).drop 64)
      (w32 (h0 + a), w32 (h1 + b), w32 (h2 + c), w32 (h3 + d), w32 (h4 + e))

/-- `calc_sha1_hash` of src/download/torrent.rs: the 20-byte SHA-1 digest
of `piece_data` (the sha1 crate implements FIPS 180 SHA-1). -/
def calc_sha1_hash (piece_data : List Nat) : List Nat :=
  let padded := sha1Pad piece_data
  let st := sha1Blocks padded.length padded
    (0x67452301, 0xEFCDAB89, 0x98BADCFE, 0x10325476, 0xC3D2E1F0)
  match st with
  | (h0, h1, h2, h3, h4) =>
    beBytes 4 h0 ++ beBytes 4 h1 ++ beBytes 4 h2 ++ beBytes 4 h3 ++ beBytes 4 h4

/-! ## Layout planner (Torrent::genereate_piece_mapping) -/

structure PieceLocationMap where
  path : String
  offset : Nat
  length : Nat
deriving DecidableEq, Repr

/-- The `file_vec` built from the file list: one entry per file, offset 0,
in file order. -/
def mkFileVec (files : List (String × Nat)) : List PieceLocationMap :=
  files.map (fun f => ⟨f.1, 0, f.2⟩)

/-- The `while piece_data_read != piece_data_to_read` loop.  State:
bytes read for this piece, current file, files still in the iterator,
offset inside the current file, total bytes examined, and the segment
vector built so far.  `none` models both fuel exhaustion (the Rust loop
then spins forever) and the `file_vec_iter.next().unwrap()` panic. -/
def layoutInner (total piece_data_to_read : Nat) :
    Nat → Nat → PieceLocationMap → List PieceLocationMap → Nat → Nat →
    List PieceLocationMap →
    Option (List PieceLocationMap × PieceLocationMap × List PieceLocationMap × Nat × Nat)
  | 0, _, _, _, _, _, _ => none
  | fuel + 1, piece_data_read, cur, rest, current_offset, data_examined, acc =>
    if piece_data_read = piece_data_to_read then
      some (acc, cur, rest, current_offset, data_examined)
    else if current_offset + (piece_data_to_read - piece_data_read) ≤ cur.length then
      let d := piece_data_to_read - piece_data_read
      layoutInner total piece_data_to_read fuel (piece_data_read + d) cur rest
        (current_offset + d) (data_examined + d) (acc ++ [⟨cur.path, current_offset, d⟩])
    else
      let d := cur.length - current_offset
      let acc2 := if d = 0 then acc else acc ++ [⟨cur.path, current_offset, d⟩]
      if total ≠ data_examined + d then
        match rest with
        | [] => none
        | f :: fs =>
          layoutInner total piece_data_to_read fuel (piece_data_read + d) f fs 0
            (data_examined + d) acc2
      else
        layoutInner total piece_data_to_read fuel (piece_data_read + d) cur rest 0
          (data_examined + d) acc2

/-- The `for piece_index in 0..total_pieces_to_download` loop, counting the
pieces still to lay out; segment vectors are collected in piece order
(`piece_mapping.insert(piece_index, piece_location_vec)` with increasing
keys is this list, position `i` holding piece `i`). -/
def layoutOuter (fuel piece_length total : Nat) :
    Nat → PieceLocationMap → List PieceLocationMap → Nat → Nat →
    List (List PieceLocationMap) → Option (List (List PieceLocationMap))
  | 0, _, _, _, _, acc => some acc
  | k + 1, cur, rest, current_offset, data_examined, acc =>
    let piece_data_to_read := min piece_length (total - data_examined)
    match layoutInner total piece_data_to_read fuel 0 cur rest current_offset
        data_examined [] with
    | none => none
    | some (segs, cur2, rest2, off2, ex2) =>
      layoutOuter fuel piece_length total k cur2 rest2 off2 ex2 (acc ++ [segs])

/-- `Torrent::genereate_piece_mapping` over the file vector; `none` models
the panics (empty file list, exhausted iterator) and fuel exhaustion. -/
def genereate_piece_mapping (fuel total_pieces_to_download torrent_data_len
    piece_length : Nat) (file_vec : List PieceLocationMap) :
    Option (List (List PieceLocationMap)) :=
  match file_vec with
  | [] => none
  | f :: fs =>
    layoutOuter fuel piece_length torrent_data_len total_pieces_to_download f fs 0 0 []

/-! ## Resume probe (Torrent::pieces_to_be_downloaded) -/

/-- Rust `Vec::with_capacity(n)`: the vector has capacity `n` but LENGTH 0;
as a byte buffer it holds no elements. -/
def vecWithCapacity (_ : Nat) : List Nat := []

/-- The on-disk state: file contents by path. -/
def fsRead (fs : List (String × List Nat)) (path : String) : Option (List Nat) :=
  (fs.find? (fun e => e.1 = path)).map (fun e => e.2)

/-- `Read::read_exact` into a buffer of length `n` after seeking to
`offset`: fills exactly `n` bytes, an error (hence an unwrap panic) when
the file is too short; a zero-length buffer always succeeds at once. -/
def readExact (content : List Nat) (offset n : Nat) : Option (List Nat) :=
  if n = 0 then some []
  else if offset + n ≤ content.length then some ((content.drop offset).take n)
  else none

/-- The inner `for piece_location_map in piece_mapping[&piece_index]` loop:
each segment is read into `sub_buf`, a vector created by
`Vec::with_capacity(length)`, and appended to `buf`. -/
def segsRead (fs : List (String × List Nat)) :
    List PieceLocationMap → Option (List Nat)
  | [] => some []
  | s :: ss =>
    let sub_buf := vecWithCapacity s.length
    match fsRead fs s.path with
    | none => none
    | some content =>
      match readExact content s.offset sub_buf.length with
      | none => none
      | some part =>
        match segsRead fs ss with
        | none => none
        | some rest => some (part ++ rest)

/-- The `for piece_index in 0..total_pieces_to_download` loop of
`pieces_to_be_downloaded`: a piece index is pushed when the SHA-1 of the
assembled buffer differs from the manifest digest of that piece. -/
def piecesProbeLoop (fs : List (String × List Nat))
    (piece_mapping : List (List PieceLocationMap)) (pieces : List (List Nat)) :
    Nat → Nat → List Nat → Option (List Nat)
  | 0, _, acc => some acc
  | k + 1, i, acc =>
    match segsRead fs (piece_mapping.getD i []) with
    | none => none
    | some buf =>
      match pieces.get? i with
      | none => none
      | some digest =>
        piecesProbeLoop fs piece_mapping pieces k (i + 1)
          (if calc_sha1_hash buf ≠ digest then acc ++ [i] else acc)

/-- `Torrent::pieces_to_be_downloaded`: probes the on-disk state and
returns the missing-piece vector; `none` models the unwrap panics (the
initial `File::open` of `piece_mapping[&0][0].path`, a missing file, or a
short read). -/
def pieces_to_be_downloaded (fs : List (String × List Nat))
    (total_pieces_to_download : Nat)
    (piece_mapping : List (List PieceLocationMap)) (pieces : List (List Nat)) :
    Option (List Nat) :=
  match (piece_mapping.getD 0 []).head? with
  | none => none
  | some first =>
    match fsRead fs first.path with
    | none => none
    | some _ => piecesProbeLoop fs piece_mapping pieces total_pieces_to_download 0 []

/-! ## Peer wire codec (src/download/peers.rs) -/

inductive PeerMsgTag where
  | Choke | Unchoke | Interested | NotInterested | Have
  | Bitfield | Request | Piece | Cancel
deriving DecidableEq, Repr

/-- `TryFrom<u8> for PeerMsgTag`: ids 0 through 8; anything else errors. -/
def PeerMsgTag.tryFrom (v : Nat) : Option PeerMsgTag :=
  if v = 0 then some .Choke
  else if v = 1 then some .Unchoke
  else if v = 2 then some .Interested
  else if v = 3 then some .NotInterested
  else if v = 4 then some .Have
  else if v = 5 then some .Bitfield
  else if v = 6 then some .Request
  else if v = 7 then some .Piece
  else if v = 8 then some .Cancel
  else none

structure PeerMsgType where
  msg_length : Nat
  tag : PeerMsgTag
  data : List Nat
deriving DecidableEq, Repr

/-- `PeerMsgType::new`: the length field is `data.len() + 1` as `u32`. -/
def PeerMsgType.new (tag : PeerMsgTag) (data : List Nat) : PeerMsgType :=
  ⟨(data.length + 1) % 2 ^ 32, tag, data⟩

/-- `const MAX: usize = 1024 * 16`. -/
def MAX : Nat := 1024 * 16

/-- Big-endian 32-bit value of four bytes. -/
def be32 (b0 b1 b2 b3 : Nat) : Nat := ((b0 * 256 + b1) * 256 + b2) * 256 + b3

/-- Outcome of `PeerFrameCodec::decode`: `ok none` asks for more bytes,
`ok (some (frame, rest))` yields a frame and the advanced buffer, `err` is
the `bail!` on an oversized length, `panic` is the `unwrap()` on a failed
`PeerMsgTag::try_from`. -/
inductive DecodeOutcome where
  | ok : Option (PeerMsgType × List Nat) → DecodeOutcome
  | err : DecodeOutcome
  | panic : DecodeOutcome
deriving DecidableEq, Repr

/-- Body of `PeerFrameCodec::decode`, with fuel for the self-call that
skips a zero-length keep-alive frame.  The Rust code calls
`PeerMsgTag::try_from(msg_type).unwrap()` in both the `length == 1` and the
payload branches; the conversion is factored out here, which panics in
exactly the same cases.  Every self-call drops four buffered bytes, so fuel
equal to the buffer length never runs out. -/
def decodeFuel : Nat → List Nat → DecodeOutcome
  | 0, _ => .ok none
  | fuel + 1, src =>
    if src.length < 4 then .ok none
    else
      let length := be32 (src.getD 0 0) (src.getD 1 0) (src.getD 2 0) (src.getD 3 0)
      if MAX < length then .err
      else if src.length < 4 + length then .ok none
      else if length = 0 then decodeFuel fuel (src.drop 4)
      else
        match PeerMsgTag.tryFrom (src.getD 4 0) with
        | none => .panic
        | some tag =>
          if length = 1 then .ok (some (PeerMsgType.new tag [], src.drop (4 + length)))
          else .ok (some (PeerMsgType.new tag ((src.drop 5).take (length - 1)),
            src.drop (4 + length)))

/-- `PeerFrameCodec::decode` on the buffered bytes. -/
def PeerFrameCodec.decode (src : List Nat) : DecodeOutcome :=
  decodeFuel src.length src

/-! ## Peer session (Torrent::start_download, per-peer task) -/

/-- Modelled from the spec: the 68-byte handshake record (the `HandShake`
struct lives in the part of src/download/tracker.rs absent from the
sources): protocol string length and bytes, 8 reserved bytes, the 20-byte
info hash and the 20-byte peer id. -/
structure HandShake where
  pstrlen : Nat
  pstr : List Nat
  reserved : List Nat
  info_hash : List Nat
  peer_id : List Nat
deriving DecidableEq, Repr

/-- What the remote peer sends: its handshake, and for every
`request (index, begin, length)` a reply frame (tag and raw frame payload).
The first two frames the session reads are dropped unexamined by the Rust
code, so they are not modelled. -/
structure PeerModel where
  handshake : HandShake
  blockReply : Nat → Nat → Nat → PeerMsgTag × List Nat

/-- Messages the session writes to the socket. -/
inductive SentMsg where
  | handshake : HandShake → SentMsg
  | interested : SentMsg
  | request : Nat → Nat → Nat → SentMsg
deriving DecidableEq, Repr

/-- `let max_request_block_size = 2_usize.pow(13)`. -/
def max_request_block_size : Nat := 2 ^ 13

/-- Modelled from the spec: `PeerPieceMsgType::from_bytes(data).block()`
(the type is absent from src/download/peers.rs): a `piece` payload is a
4-byte index, a 4-byte begin, then the block bytes. -/
def pieceMsgBlock (data : List Nat) : List Nat := data.drop 8

/-- The `while piece_to_download_len != piece_downloaded_len` loop: request
blocks of at most `2^13` bytes, append each returned block, panic
(`assert_eq!(&PeerMsgTag::Piece, new_frame.tag())`) on a non-piece reply.
A `piece_downloaded_len` beyond the target would make the Rust subtraction
underflow and panic; the loop never reaches that state.  Each iteration
consumes one unit of fuel and adds at least one byte, so the fuel
`piece_to_download_len + 1` supplied by the caller never runs out; the
fuel-out value keeps the state and reports a panic. -/
def blockLoop (peer : PeerModel) (piece_index piece_to_download_len : Nat) :
    Nat → Nat → List SentMsg → List Nat → List SentMsg × List Nat × Bool
  | 0, _, sent, piece_data => (sent, piece_data, true)
  | fuel + 1, piece_downloaded_len, sent, piece_data =>
    if piece_downloaded_len = piece_to_download_len then (sent, piece_data, false)
    else if piece_to_download_len < piece_downloaded_len then (sent, piece_data, true)
    else
      let this_block_data_len :=
        min (piece_to_download_len - piece_downloaded_len) max_request_block_size
      let sent2 := sent ++ [.request piece_index piece_downloaded_len this_block_data_len]
      let reply := peer.blockReply piece_index piece_downloaded_len this_block_data_len
      if reply.1 ≠ .Piece then (sent2, piece_data, true)
      else
        blockLoop peer piece_index piece_to_download_len fuel
          (piece_downloaded_len + this_block_data_len) sent2
          (piece_data ++ pieceMsgBlock reply.2)

/-- Positional write (`FileExt::seek_write`) into file bytes. -/
def seekWrite (content : List Nat) (offset : Nat) (bytes : List Nat) : List Nat :=
  content.take offset ++ bytes ++ content.drop (offset + bytes.length)

def fsWrite (fs : List (String × List Nat)) (path : String) (offset : Nat)
    (bytes : List Nat) : List (String × List Nat) :=
  fs.map (fun e => if e.1 = path then (e.1, seekWrite e.2 offset bytes) else e)

/-- The `for file_path_detail in file_paths_details` write loop: opens each
file (panic when it does not exist), writes the matching slice of
`piece_data` at the segment offset (panic when the slice is out of range).
Returns the file system as written so far and whether it panicked. -/
def writeSegments (fs : List (String × List Nat)) :
    List PieceLocationMap → List Nat → Nat → List (String × List Nat) × Bool
  | [], _, _ => (fs, false)
  | s :: ss, piece_data, piece_data_pointer =>
    match fsRead fs s.path with
    | none => (fs, true)
    | some _ =>
      if piece_data.length < piece_data_pointer + s.length then (fs, true)
      else
        writeSegments
          (fsWrite fs s.path s.offset ((piece_data.drop piece_data_pointer).take s.length))
          ss piece_data (piece_data_pointer + s.length)

/-- The expected length of piece `piece_index`: `piece_length` except for
the last piece, which gets the remainder. -/
def pieceToDownloadLen (piece_length total_pieces_to_download torrent_data_len
    piece_index : Nat) : Nat :=
  if piece_index ≠ total_pieces_to_download - 1 then piece_length
  else torrent_data_len - piece_length * (total_pieces_to_download - 1)

/-- One iteration of the download loop after a piece index has been popped:
block assembly, the length assertion, the hash assertion
(`assert_eq!(pieces_hash[piece_index], piece_hash)`), then persistence.
Returns the messages sent, the file system, and whether the task panicked. -/
def processPiece (peer : PeerModel) (pieces_hash : List (List Nat))
    (piece_mapping : List (List PieceLocationMap))
    (piece_length total_pieces_to_download torrent_data_len : Nat)
    (piece_index : Nat) (sent : List SentMsg) (fs : List (String × List Nat)) :
    List SentMsg × List (String × List Nat) × Bool :=
  let piece_to_download_len :=
    pieceToDownloadLen piece_length total_pieces_to_download torrent_data_len piece_index
  match blockLoop peer piece_index piece_to_download_len
      (piece_to_download_len + 1) 0 sent [] with
  | (sent2, piece_data, panicked) =>
    if panicked then (sent2, fs, true)
    else if piece_data.length ≠ piece_to_download_len then (sent2, fs, true)
    else
      let piece_hash := calc_sha1_hash piece_data
      match pieces_hash.get? piece_index with
      | none => (sent2, fs, true)
      | some digest =>
        if digest ≠ piece_hash then (sent2, fs, true)
        else
          match piece_mapping.get? piece_index with
          | none => (sent2, fs, true)
          | some segs =>
            match writeSegments fs segs piece_data 0 with
            | (fs2, wpanic) => (sent2, fs2, wpanic)

structure SessionResult where
  sent : List SentMsg
  pieces : List Nat
  fs : List (String × List Nat)
  panicked : Bool
deriving DecidableEq, Repr

/-- The `loop` of the peer task: pop the last element of the shared
missing-piece vector (`Vec::pop`), process it, repeat; stop when the vector
is empty; a panic is fatal for the task and the popped index is NOT pushed
back.  Each iteration pops one element and consumes one unit of fuel, so
the fuel `pieces.length + 1` supplied by the caller never runs out. -/
def sessionLoop (peer : PeerModel) (pieces_hash : List (List Nat))
    (piece_mapping : List (List PieceLocationMap))
    (piece_length total_pieces_to_download torrent_data_len : Nat) :
    Nat → List Nat → List SentMsg → List (String × List Nat) → SessionResult
  | 0, pieces, sent, fs => ⟨sent, pieces, fs, false⟩
  | fuel + 1, pieces, sent, fs =>
    match pieces.getLast? with
    | none => ⟨sent, pieces, fs, false⟩
    | some piece_index =>
      let rest := pieces.dropLast
      match processPiece peer pieces_hash piece_mapping piece_length
          total_pieces_to_download torrent_data_len piece_index sent fs with
      | (sent2, fs2, panicked) =>
        if panicked then ⟨sent2, rest, fs2, true⟩
        else
          sessionLoop peer pieces_hash piece_mapping piece_length
            total_pieces_to_download torrent_data_len fuel rest sent2 fs2

/-- The spawned peer task of `Torrent::start_download`: send our handshake,
read the handshake of the peer (bound to `_response_handshake`, never
compared against our info hash), read and drop the bitfield frame, send
`interested`, read and drop one more frame, then run the download loop. -/
def runSession (our_handshake : HandShake) (peer : PeerModel)
    (pieces_hash : List (List Nat)) (piece_mapping : List (List PieceLocationMap))
    (piece_length total_pieces_to_download torrent_data_len : Nat)
    (pieces : List Nat) (fs : List (String × List Nat)) : SessionResult :=
  let _response_handshake := peer.handshake
  let sent := [SentMsg.handshake our_handshake, SentMsg.interested]
  sessionLoop peer pieces_hash piece_mapping piece_length total_pieces_to_download
    torrent_data_len (pieces.length + 1) pieces sent fs

/-! ## Auxiliary definitions used by the statements -/

/-- Adjacent dictionary keys strictly increasing in the derived order. -/
def chainLtB : List (BencodeType × BencodeType) → Bool
  | [] => true
  | [_] => true
  | (k1, _) :: (k2, v2) :: ps => benCompare k1 k2 == .lt && chainLtB ((k2, v2) :: ps)

mutual

/-- Every dictionary anywhere inside the value has strictly increasing keys. -/
def mapsSortedB : BencodeType → Bool
  | .Bstring _ => true
  | .Bint _ => true
  | .Bvec l => mapsSortedListB l
  | .Bmap m => chainLtB m && mapsSortedPairsB m

def mapsSortedListB : List BencodeType → Bool
  | [] => true
  | e :: es => mapsSortedB e && mapsSortedListB es

def mapsSortedPairsB : List (BencodeType × BencodeType) → Bool
  | [] => true
  | (k, v) :: ps => mapsSortedB k && mapsSortedB v && mapsSortedPairsB ps

end

/-- The bytes of `d3:cow3:moo4:spaml1:a1:bee`. -/
def cowSpamInput : List Nat :=
  [100, 51, 58, 99, 111, 119, 51, 58, 109, 111, 111, 52, 58, 115, 112, 97, 109,
   108, 49, 58, 97, 49, 58, 98, 101, 101]

/-- The dictionary with cow mapped to moo and spam mapped to the list of
the strings a and b. -/
def cowSpamValue : BencodeType :=
  .Bmap [(.Bstring [99, 111, 119], .Bstring [109, 111, 111]),
         (.Bstring [115, 112, 97, 109], .Bvec [.Bstring [97], .Bstring [98]])]

/-- Sum of the segment lengths of a layout vector. -/
def sumLens (segs : List PieceLocationMap) : Nat := (segs.map (·.length)).sum

/-- A peer that advertises the info hash 1,1,…,1 and answers every request
with a piece frame whose block bytes are `bytes`. -/
def peerEvil (bytes : List Nat) : PeerModel :=
  ⟨⟨19, [], [], List.replicate 20 1, []⟩,
   fun _ _ _ => (.Piece, [0, 0, 0, 0, 0, 0, 0, 0] ++ bytes)⟩

/-- The `data_examined` value after `j` pieces have been laid out, starting
from `ex`: each piece advances it by `min piece_length (total - examined)`. -/
def exSeq (piece_length total ex : Nat) : Nat → Nat
  | 0 => ex
  | j + 1 =>
    exSeq piece_length total (ex + min piece_length (total - ex)) j

/-! # Theorems -/

/-! ## Frame codec lemmas -/

theorem decodeFuel_err_of_large (fuel : Nat) (src : List Nat)
    (h4 : ¬ src.length < 4)
    (hM : MAX < be32 (src.getD 0 0) (src.getD 1 0) (src.getD 2 0) (src.getD 3 0))
    (hf : 0 < fuel) : decodeFuel fuel src = .err := by
  cases fuel with
  | zero => omega
  | succ n =>
    unfold decodeFuel
    simp only [h4, if_false, if_pos hM]

theorem decode_err_of_large (src : List Nat) (h4 : 4 ≤ src.length)
    (hM : MAX < be32 (src.getD 0 0) (src.getD 1 0) (src.getD 2 0) (src.getD 3 0)) :
    PeerFrameCodec.decode src = .err :=
  decodeFuel_err_of_large src.length src (by omega) hM (by omega)

theorem decode_err_of_large_cons (b0 b1 b2 b3 : Nat) (rest : List Nat)
    (hM : MAX < be32 b0 b1 b2 b3) :
    PeerFrameCodec.decode (b0 :: b1 :: b2 :: b3 :: rest) = .err := by
  apply decode_err_of_large
  · simp
  · exact hM

theorem decodeFuel_accept (fuel : Nat) (src : List Nat) (tag : PeerMsgTag)
    (h1 : 1 ≤ be32 (src.getD 0 0) (src.getD 1 0) (src.getD 2 0) (src.getD 3 0))
    (hMle : be32 (src.getD 0 0) (src.getD 1 0) (src.getD 2 0) (src.getD 3 0) ≤ MAX)
    (hbuf : 4 + be32 (src.getD 0 0) (src.getD 1 0) (src.getD 2 0) (src.getD 3 0) ≤
      src.length)
    (htag : PeerMsgTag.tryFrom (src.getD 4 0) = some tag) (hf : 0 < fuel) :
    decodeFuel fuel src =
      .ok (some (PeerMsgType.new tag ((src.drop 5).take
          (be32 (src.getD 0 0) (src.getD 1 0) (src.getD 2 0) (src.getD 3 0) - 1)),
        src.drop (4 + be32 (src.getD 0 0) (src.getD 1 0) (src.getD 2 0) (src.getD 3 0)))) := by
  cases fuel with
  | zero => omega
  | succ n =>
    unfold decodeFuel
    simp only [List.getD_eq_getElem?_getD] at h1 hMle hbuf htag ⊢
    rw [if_neg (by omega)]
    rw [if_neg (by omega), if_neg (by omega), if_neg (by omega), htag]
    by_cases hone :
        be32 ((src[0]?).getD 0) ((src[1]?).getD 0) ((src[2]?).getD 0) ((src[3]?).getD 0) = 1
    · simp [hone]
    · simp [hone]

theorem tryFrom_none_of_ge (v : Nat) (h : 9 ≤ v) : PeerMsgTag.tryFrom v = none := by
  unfold PeerMsgTag.tryFrom
  repeat rw [if_neg (by omega)]

theorem decodeFuel_panic (fuel : Nat) (src : List Nat)
    (h1 : 1 ≤ be32 (src.getD 0 0) (src.getD 1 0) (src.getD 2 0) (src.getD 3 0))
    (hMle : be32 (src.getD 0 0) (src.getD 1 0) (src.getD 2 0) (src.getD 3 0) ≤ MAX)
    (hbuf : 4 + be32 (src.getD 0 0) (src.getD 1 0) (src.getD 2 0) (src.getD 3 0) ≤
      src.length)
    (hid : 9 ≤ src.getD 4 0) (hf : 0 < fuel) : decodeFuel fuel src = .panic := by
  cases fuel with
  | zero => omega
  | succ n =>
    unfold decodeFuel
    rw [if_neg (by omega)]
    simp only
    rw [if_neg (by omega), if_neg (by omega), if_neg (by omega),
      tryFrom_none_of_ge _ hid]

/-! ## Claim C8 -/

/-- C8, corrected: the size limit of the framed-message decoder is
`MAX = 16 * 1024 = 16384` bytes, not 16 KiB + 9 = 16393: a frame whose
4-byte big-endian length prefix exceeds 16384 is a fatal error, and a frame
whose prefix is between 1 and 16384 is accepted once `4 + prefix` bytes are
buffered, provided its id byte is a valid message id (0 through 8). -/
theorem frame_size_limit_is_16384 :
    (∀ src : List Nat, 4 ≤ src.length →
      MAX < be32 (src.getD 0 0) (src.getD 1 0) (src.getD 2 0) (src.getD 3 0) →
      PeerFrameCodec.decode src = .err) ∧
    (∀ (src : List Nat) (tag : PeerMsgTag),
      1 ≤ be32 (src.getD 0 0) (src.getD 1 0) (src.getD 2 0) (src.getD 3 0) →
      be32 (src.getD 0 0) (src.getD 1 0) (src.getD 2 0) (src.getD 3 0) ≤ MAX →
      4 + be32 (src.getD 0 0) (src.getD 1 0) (src.getD 2 0) (src.getD 3 0) ≤
        src.length →
      PeerMsgTag.tryFrom (src.getD 4 0) = some tag →
      PeerFrameCodec.decode src =
        .ok (some (PeerMsgType.new tag ((src.drop 5).take
            (be32 (src.getD 0 0) (src.getD 1 0) (src.getD 2 0) (src.getD 3 0) - 1)),
          src.drop
            (4 + be32 (src.getD 0 0) (src.getD 1 0) (src.getD 2 0) (src.getD 3 0))))) := by
  constructor
  · intro src h4 hM
    exact decode_err_of_large src h4 hM
  · intro src tag h1 hMle hbuf htag
    exact decodeFuel_accept src.length src tag h1 hMle hbuf htag (by omega)

/-- Witness for C8: the frame `[0,0,0,50] ++ fifty bytes with id 2` has
prefix 50 and is decoded, and the four-byte prefix 16385 alone is fatal. -/
theorem frame_size_limit_is_16384_witness :
    PeerFrameCodec.decode [0, 0, 64, 1] = .err ∧
    PeerFrameCodec.decode [0, 0, 0, 1, 2] =
      .ok (some (PeerMsgType.new .Interested [], [])) :=
  ⟨frame_size_limit_is_16384.1 [0, 0, 64, 1] (by decide) (by decide),
   by
    have h := frame_size_limit_is_16384.2 [0, 0, 0, 1, 2] .Interested (by decide)
      (by decide) (by decide) (by decide)
    simpa using h⟩

/-- Counterexample for C8 as stated: the frame below has length prefix
16386 ≤ 16393 and is fully buffered, yet the decoder reports a fatal error
instead of accepting it. -/
theorem buffered_frame_of_16386_is_rejected :
    PeerFrameCodec.decode ([0, 0, 64, 2, 9] ++ List.replicate 16385 0) = .err ∧
    be32 0 0 64 2 = 16386 ∧ 16386 ≤ 16 * 1024 + 9 :=
  ⟨decode_err_of_large_cons 0 0 64 2 (9 :: List.replicate 16385 0) (by decide),
   by decide, by decide⟩

/-! ## Claim C10 -/

/-- C10, corrected: the decoder panics on an unknown message id only for
frames that pass the size check first: for every buffered frame whose
length prefix is between 1 and `MAX = 16384` and whose id byte is 9 or
greater, `PeerFrameCodec::decode` panics (the `unwrap()` on the failed
u8-to-PeerMsgTag conversion); a frame with a larger prefix is rejected with
an error before the id byte is examined. -/
theorem decode_panics_on_bad_id (src : List Nat)
    (h1 : 1 ≤ be32 (src.getD 0 0) (src.getD 1 0) (src.getD 2 0) (src.getD 3 0))
    (hMle : be32 (src.getD 0 0) (src.getD 1 0) (src.getD 2 0) (src.getD 3 0) ≤ MAX)
    (hbuf : 4 + be32 (src.getD 0 0) (src.getD 1 0) (src.getD 2 0) (src.getD 3 0) ≤
      src.length)
    (hid : 9 ≤ src.getD 4 0) : PeerFrameCodec.decode src = .panic :=
  decodeFuel_panic src.length src h1 hMle hbuf hid (by omega)

/-- Witness for C10: a fully buffered frame of length 2 with id byte 9. -/
theorem decode_panics_on_bad_id_witness :
    PeerFrameCodec.decode [0, 0, 0, 2, 9, 7] = .panic :=
  decode_panics_on_bad_id [0, 0, 0, 2, 9, 7] (by decide) (by decide) (by decide)
    (by decide)

/-- Counterexample for C10 as stated: a fully buffered frame whose prefix
16385 is at least 1 and whose id byte is 9 does NOT panic; the size check
runs first and the decoder returns an error. -/
theorem oversized_frame_with_bad_id_errors :
    PeerFrameCodec.decode ([0, 0, 64, 1, 9] ++ List.replicate 16384 9) = .err ∧
    ([0, 0, 64, 1, 9] ++ List.replicate 16384 9).getD 4 0 = 9 ∧
    1 ≤ be32 0 0 64 1 ∧ DecodeOutcome.err ≠ .panic :=
  ⟨decode_err_of_large_cons 0 0 64 1 (9 :: List.replicate 16384 9) (by decide),
   rfl, by decide, by decide⟩

/-! ## Claim C9 -/

/-- C9, corrected: decoding the 26 bytes of `d3:cow3:moo4:spaml1:a1:bee`
yields the dictionary mapping cow to moo and spam to the list of the
strings a and b, and reports 26 (not 24) bytes consumed. -/
theorem decode_cow_spam_scenario :
    decodeBen 100 cowSpamInput = some (cowSpamValue, 26) ∧
    cowSpamInput.length = 26 := ⟨rfl, rfl⟩

/-- Counterexample for C9 as stated: the reported consumed count differs
from 24. -/
theorem decode_cow_spam_consumed_differs_from_24 :
    (decodeBen 100 cowSpamInput).map (fun r => r.2) ≠ some 24 := by decide

/-! ## Claim C2 -/

set_option maxRecDepth 100000 in
/-- C2, code bug: `pieces_to_be_downloaded` builds its read buffers with
`Vec::with_capacity(length)`, whose LENGTH is zero, so `read_exact` fills
zero bytes and every piece is hashed as the empty byte string.  On a
completed single-file download (file `f` holding the byte 0x61, one piece
whose manifest digest is exactly SHA-1 of 0x61) the probe still schedules
piece 0, although the on-disk piece bytes hash to the manifest digest; the
claim (and resume idempotence) requires the returned set to be empty. -/
theorem resume_probe_reads_zero_bytes :
    calc_sha1_hash [97] =
      [0x86, 0xf7, 0xe4, 0x37, 0xfa, 0xa5, 0xa7, 0xfc, 0xe1, 0x5d,
       0x1d, 0xdc, 0xb9, 0xea, 0xea, 0xea, 0x37, 0x76, 0x67, 0xb8] ∧
    segsRead [("f", [97])] [⟨"f", 0, 1⟩] = some [] ∧
    pieces_to_be_downloaded [("f", [97])] 1 [[⟨"f", 0, 1⟩]]
      [[0x86, 0xf7, 0xe4, 0x37, 0xfa, 0xa5, 0xa7, 0xfc, 0xe1, 0x5d,
        0x1d, 0xdc, 0xb9, 0xea, 0xea, 0xea, 0x37, 0x76, 0x67, 0xb8]] =
      some [0] :=
  ⟨by decide, by decide, by decide⟩

/-! ## Session lemmas -/

theorem blockLoop_sent_mem (peer : PeerModel) (i L : Nat) (fuel : Nat) :
    ∀ (dl : Nat) (sent : List SentMsg) (data : List Nat) (m : SentMsg),
      m ∈ sent → m ∈ (blockLoop peer i L fuel dl sent data).1 := by
  induction fuel with
  | zero => intro dl sent data m hm; simpa [blockLoop] using hm
  | succ n ih =>
    intro dl sent data m hm
    rw [blockLoop]
    by_cases h1 : dl = L
    · simpa [h1] using hm
    · rw [if_neg h1]
      by_cases h2 : L < dl
      · simpa [h2] using hm
      · rw [if_neg h2]
        simp only
        by_cases h3 :
            (peer.blockReply i dl (min (L - dl) max_request_block_size)).1 ≠ .Piece
        · simp only [if_pos h3]
          exact List.mem_append_left _ hm
        · rw [if_neg h3]
          exact ih _ _ _ m (List.mem_append_left _ hm)

theorem processPiece_fst (peer : PeerModel) (hashes : List (List Nat))
    (mapping : List (List PieceLocationMap)) (pl tp tdl i : Nat)
    (sent : List SentMsg) (fs : List (String × List Nat)) :
    (processPiece peer hashes mapping pl tp tdl i sent fs).1 =
      (blockLoop peer i (pieceToDownloadLen pl tp tdl i)
        (pieceToDownloadLen pl tp tdl i + 1) 0 sent []).1 := by
  unfold processPiece
  rcases hbl : blockLoop peer i (pieceToDownloadLen pl tp tdl i)
      (pieceToDownloadLen pl tp tdl i + 1) 0 sent [] with ⟨s2, d2, p2⟩
  simp only [hbl]
  cases hget : hashes.get? i <;> cases hmap : mapping.get? i <;>
    simp only [hget, hmap] <;> split_ifs <;> rfl

theorem sessionLoop_sent_mem (peer : PeerModel) (hashes : List (List Nat))
    (mapping : List (List PieceLocationMap)) (pl tp tdl : Nat) (fuel : Nat) :
    ∀ (pieces : List Nat) (sent : List SentMsg) (fs : List (String × List Nat))
      (m : SentMsg), m ∈ sent →
      m ∈ (sessionLoop peer hashes mapping pl tp tdl fuel pieces sent fs).sent := by
  induction fuel with
  | zero => intro pieces sent fs m hm; simpa [sessionLoop] using hm
  | succ n ih =>
    intro pieces sent fs m hm
    rw [sessionLoop]
    cases hlast : pieces.getLast? with
    | none => simpa using hm
    | some i =>
      simp only
      have hmem : m ∈ (processPiece peer hashes mapping pl tp tdl i sent fs).1 := by
        rw [processPiece_fst]
        exact blockLoop_sent_mem peer i _ _ _ _ _ m hm
      rcases hpp : processPiece peer hashes mapping pl tp tdl i sent fs with ⟨s2, fs2, pan⟩
      rw [hpp] at hmem
      simp only at hmem
      by_cases hpan : pan
      · simpa [hpan] using hmem
      · simp only [hpan, if_false]
        exact ih _ _ _ m hmem

/-! ## Claim C3 -/

/-- C3, corrected: the session never compares the info hash advertised in
the handshake of the peer with its own; for EVERY peer, whatever info hash
its handshake carries, the session sends `interested` (the claimed
rejection path does not exist in the code). -/
theorem interested_sent_regardless_of_info_hash (our : HandShake) (peer : PeerModel)
    (hashes : List (List Nat)) (mapping : List (List PieceLocationMap))
    (pl tp tdl : Nat) (pieces : List Nat) (fs : List (String × List Nat)) :
    SentMsg.interested ∈ (runSession our peer hashes mapping pl tp tdl pieces fs).sent := by
  unfold runSession
  apply sessionLoop_sent_mem
  simp

/-- Counterexample for C3 as stated: a peer whose handshake advertises the
info hash 1,1,…,1 while ours is 0,0,…,0 still receives `interested`. -/
theorem interested_sent_despite_info_hash_mismatch :
    (peerEvil [1]).handshake.info_hash ≠ List.replicate 20 0 ∧
    SentMsg.interested ∈
      (runSession ⟨19, [], [], List.replicate 20 0, []⟩ (peerEvil [1])
        [] [] 0 0 0 [] []).sent :=
  ⟨by decide, by decide⟩

/-! ## Claim C4 -/

theorem processPiece_hash_mismatch (peer : PeerModel) (hashes : List (List Nat))
    (mapping : List (List PieceLocationMap)) (pl tp tdl i : Nat)
    (sent : List SentMsg) (fs : List (String × List Nat))
    (hmis : hashes.get? i ≠ some (calc_sha1_hash
      (blockLoop peer i (pieceToDownloadLen pl tp tdl i)
        (pieceToDownloadLen pl tp tdl i + 1) 0 sent []).2.1)) :
    processPiece peer hashes mapping pl tp tdl i sent fs =
      ((blockLoop peer i (pieceToDownloadLen pl tp tdl i)
        (pieceToDownloadLen pl tp tdl i + 1) 0 sent []).1, fs, true) := by
  unfold processPiece
  rcases hbl : blockLoop peer i (pieceToDownloadLen pl tp tdl i)
      (pieceToDownloadLen pl tp tdl i + 1) 0 sent [] with ⟨s2, d2, p2⟩
  rw [hbl] at hmis
  simp only at hmis
  simp only [hbl]
  cases hget : hashes.get? i with
  | none => simp only [hget]; split_ifs <;> rfl
  | some digest =>
    have hne : digest ≠ calc_sha1_hash d2 := by
      intro he
      exact hmis (by rw [hget, he])
    simp only [hget]
    split_ifs <;> rfl

/-- C4, confirmed: a piece whose assembled bytes do not hash to the
manifest digest is never handed to the persistence path: the task panics
on `assert_eq!(pieces_hash[piece_index], piece_hash)` (or earlier) and the
file system is returned exactly as it was. -/
theorem no_bytes_persisted_on_hash_mismatch (peer : PeerModel)
    (hashes : List (List Nat)) (mapping : List (List PieceLocationMap))
    (pl tp tdl i : Nat) (sent : List SentMsg) (fs : List (String × List Nat))
    (hmis : hashes.get? i ≠ some (calc_sha1_hash
      (blockLoop peer i (pieceToDownloadLen pl tp tdl i)
        (pieceToDownloadLen pl tp tdl i + 1) 0 sent []).2.1)) :
    processPiece peer hashes mapping pl tp tdl i sent fs =
      ((blockLoop peer i (pieceToDownloadLen pl tp tdl i)
        (pieceToDownloadLen pl tp tdl i + 1) 0 sent []).1, fs, true) :=
  processPiece_hash_mismatch peer hashes mapping pl tp tdl i sent fs hmis

set_option maxRecDepth 100000 in
/-- Witness for C4: a peer that serves the bytes 1,2,3 for the single
3-byte piece whose manifest digest is the all-zero digest; nothing is
written and the task panics. -/
theorem no_bytes_persisted_on_hash_mismatch_witness :
    ([List.replicate 20 0].get? 0 ≠ some (calc_sha1_hash
      (blockLoop (peerEvil [1, 2, 3]) 0 (pieceToDownloadLen 3 1 3 0)
        (pieceToDownloadLen 3 1 3 0 + 1) 0 [] []).2.1)) ∧
    processPiece (peerEvil [1, 2, 3]) [List.replicate 20 0] [[⟨"f", 0, 3⟩]]
        3 1 3 0 [] [("f", [0, 0, 0])] =
      ((blockLoop (peerEvil [1, 2, 3]) 0 (pieceToDownloadLen 3 1 3 0)
        (pieceToDownloadLen 3 1 3 0 + 1) 0 [] []).1, [("f", [0, 0, 0])], true) :=
  ⟨by decide,
   no_bytes_persisted_on_hash_mismatch (peerEvil [1, 2, 3]) [List.replicate 20 0]
     [[⟨"f", 0, 3⟩]] 3 1 3 0 [] [("f", [0, 0, 0])] (by decide)⟩

/-! ## Claim C5 -/

/-- C5, corrected: when the SHA-1 of an assembled piece does not match the
manifest digest, the downloaded bytes are discarded (the file system is
unchanged) and the session dies on the assertion, but the popped piece
index is NOT returned to the shared missing-piece vector: the vector
afterwards is exactly the old vector with its last element removed. -/
theorem mismatch_closes_session_without_requeue (peer : PeerModel)
    (hashes : List (List Nat)) (mapping : List (List PieceLocationMap))
    (pl tp tdl : Nat) (pieces : List Nat) (i : Nat) (sent : List SentMsg)
    (fs : List (String × List Nat))
    (hpop : pieces.getLast? = some i)
    (hmis : hashes.get? i ≠ some (calc_sha1_hash
      (blockLoop peer i (pieceToDownloadLen pl tp tdl i)
        (pieceToDownloadLen pl tp tdl i + 1) 0 sent []).2.1)) :
    sessionLoop peer hashes mapping pl tp tdl (pieces.length + 1) pieces sent fs =
      ⟨(blockLoop peer i (pieceToDownloadLen pl tp tdl i)
        (pieceToDownloadLen pl tp tdl i + 1) 0 sent []).1,
       pieces.dropLast, fs, true⟩ := by
  rw [sessionLoop, hpop]
  simp only
  rw [processPiece_hash_mismatch peer hashes mapping pl tp tdl i sent fs hmis]
  simp

set_option maxRecDepth 100000 in
/-- Witness for C5 (amended): the concrete mismatching session of the
counterexample, through the general theorem. -/
theorem mismatch_closes_session_without_requeue_witness :
    ([(0 : Nat)].getLast? = some 0) ∧
    sessionLoop (peerEvil [4, 5, 6]) [List.replicate 20 0] [[⟨"g", 0, 3⟩]]
        3 1 3 ([(0 : Nat)].length + 1) [0] [] [("g", [0, 0, 0])] =
      ⟨(blockLoop (peerEvil [4, 5, 6]) 0 (pieceToDownloadLen 3 1 3 0)
        (pieceToDownloadLen 3 1 3 0 + 1) 0 [] []).1, [], [("g", [0, 0, 0])], true⟩ :=
  ⟨by decide,
   mismatch_closes_session_without_requeue (peerEvil [4, 5, 6]) [List.replicate 20 0]
     [[⟨"g", 0, 3⟩]] 3 1 3 [0] 0 [] [("g", [0, 0, 0])] (by decide) (by decide)⟩

set_option maxRecDepth 100000 in
/-- Counterexample for C5 as stated: after the mismatching piece 0 is
processed, the missing-piece vector is empty — it does NOT still contain
the index 0 the claim says is returned to it. -/
theorem mismatched_piece_vanishes_from_set :
    runSession ⟨19, [], [], List.replicate 20 2, []⟩ (peerEvil [4, 5, 6])
        [List.replicate 20 0] [[⟨"g", 0, 3⟩]] 3 1 3 [0] [("g", [0, 0, 0])] =
      ⟨[SentMsg.handshake ⟨19, [], [], List.replicate 20 2, []⟩, SentMsg.interested,
        SentMsg.request 0 0 3], [], [("g", [0, 0, 0])], true⟩ ∧
    calc_sha1_hash [4, 5, 6] ≠ List.replicate 20 0 :=
  ⟨by decide, by decide⟩

/-! ## Layout planner lemmas -/

theorem sumLens_append (l : List PieceLocationMap) (x : PieceLocationMap) :
    sumLens (l ++ [x]) = sumLens l + x.length := by
  simp [sumLens]

theorem layoutInner_sum (total toRead : Nat) (fuel : Nat) :
    ∀ (read : Nat) (cur : PieceLocationMap) (rest : List PieceLocationMap)
      (off ex : Nat) (acc segs : List PieceLocationMap) (cur2 : PieceLocationMap)
      (rest2 : List PieceLocationMap) (off2 ex2 : Nat),
      layoutInner total toRead fuel read cur rest off ex acc =
        some (segs, cur2, rest2, off2, ex2) →
      read ≤ toRead →
      sumLens segs = sumLens acc + (toRead - read) ∧ ex2 = ex + (toRead - read) := by
  induction fuel with
  | zero =>
    intro read cur rest off ex acc segs cur2 rest2 off2 ex2 h hle
    simp [layoutInner] at h
  | succ n ih =>
    intro read cur rest off ex acc segs cur2 rest2 off2 ex2 h hle
    simp only [layoutInner] at h
    by_cases h1 : read = toRead
    · rw [if_pos h1] at h
      simp only [Option.some.injEq, Prod.mk.injEq] at h
      obtain ⟨hsegs, _, _, _, hex⟩ := h
      subst hsegs hex
      constructor <;> omega
    · rw [if_neg h1] at h
      by_cases h2 : off + (toRead - read) ≤ cur.length
      · rw [if_pos h2] at h
        obtain ⟨ha, hb⟩ := ih (read + (toRead - read)) cur rest (off + (toRead - read))
          (ex + (toRead - read)) (acc ++ [⟨cur.path, off, toRead - read⟩])
          segs cur2 rest2 off2 ex2 h (by omega)
        simp only [sumLens_append] at ha
        exact ⟨by omega, by omega⟩
      · rw [if_neg h2] at h
        have hacc : ∀ z : List PieceLocationMap,
            z = (if cur.length - off = 0 then acc
              else acc ++ [⟨cur.path, off, cur.length - off⟩]) →
            sumLens z = sumLens acc + (cur.length - off) := by
          intro z hz
          by_cases hzero : cur.length - off = 0
          · rw [hz, if_pos hzero, hzero]
            omega
          · rw [hz, if_neg hzero, sumLens_append]
        by_cases h3 : total ≠ ex + (cur.length - off)
        · rw [if_pos h3] at h
          cases rest with
          | nil => simp at h
          | cons f fs =>
            obtain ⟨ha, hb⟩ := ih (read + (cur.length - off)) f fs 0
              (ex + (cur.length - off))
              (if cur.length - off = 0 then acc
                else acc ++ [⟨cur.path, off, cur.length - off⟩])
              segs cur2 rest2 off2 ex2 h (by omega)
            rw [hacc _ rfl] at ha
            exact ⟨by omega, by omega⟩
        · rw [if_neg h3] at h
          obtain ⟨ha, hb⟩ := ih (read + (cur.length - off)) cur rest 0
            (ex + (cur.length - off))
            (if cur.length - off = 0 then acc
              else acc ++ [⟨cur.path, off, cur.length - off⟩])
            segs cur2 rest2 off2 ex2 h (by omega)
          rw [hacc _ rfl] at ha
          exact ⟨by omega, by omega⟩

theorem layoutOuter_spec (fuel pl total : Nat) (k : Nat) :
    ∀ (cur : PieceLocationMap) (rest : List PieceLocationMap) (off ex : Nat)
      (acc out : List (List PieceLocationMap)),
      layoutOuter fuel pl total k cur rest off ex acc = some out →
      out.length = acc.length + k ∧
      (∀ j, j < acc.length → out.getD j [] = acc.getD j []) ∧
      (∀ j, j < k →
        sumLens (out.getD (acc.length + j) []) =
          min pl (total - exSeq pl total ex j)) := by
  induction k with
  | zero =>
    intro cur rest off ex acc out h
    simp only [layoutOuter, Option.some.injEq] at h
    subst h
    exact ⟨by omega, fun j _ => rfl, fun j hj => absurd hj (by omega)⟩
  | succ m ih =>
    intro cur rest off ex acc out h
    simp only [layoutOuter] at h
    rcases hin : layoutInner total (min pl (total - ex)) fuel 0 cur rest off ex []
      with _ | ⟨segs, cur2, rest2, off2, ex2⟩
    · rw [hin] at h; simp at h
    · rw [hin] at h
      simp only at h
      obtain ⟨hsum, hex2⟩ := layoutInner_sum total (min pl (total - ex)) fuel 0 cur
        rest off ex [] segs cur2 rest2 off2 ex2 hin (by omega)
      have hsum2 : sumLens segs = min pl (total - ex) := by
        simpa [sumLens] using hsum
      have hex3 : ex2 = ex + min pl (total - ex) := by omega
      obtain ⟨hlen, hpre, hmain⟩ := ih cur2 rest2 off2 ex2 (acc ++ [segs]) out h
      refine ⟨by simp at hlen; omega, ?_, ?_⟩
      · intro j hj
        rw [hpre j (by simp; omega)]
        exact List.getD_append _ _ _ _ (by omega)
      · intro j hj
        cases j with
        | zero =>
          rw [Nat.add_zero, hpre acc.length (by simp),
            List.getD_append_right _ _ _ _ (by omega)]
          simpa [exSeq, Nat.sub_self, List.getD_cons_zero] using hsum2
        | succ j2 =>
          have := hmain j2 (by omega)
          have harith : (acc ++ [segs]).length + j2 = acc.length + (j2 + 1) := by
            simp
            omega
          rw [harith] at this
          rw [this]
          have : exSeq pl total ex (j2 + 1) = exSeq pl total ex2 j2 := by
            rw [hex3]
            rfl
          rw [this]

theorem exSeq_min (pl total : Nat) (j : Nat) :
    ∀ k : Nat, exSeq pl total (min (k * pl) total) j = min ((k + j) * pl) total := by
  induction j with
  | zero => intro k; simp [exSeq]
  | succ m ih =>
    intro k
    have hstep : min (k * pl) total + min pl (total - min (k * pl) total) =
        min ((k + 1) * pl) total := by
      have hmul : (k + 1) * pl = k * pl + pl := by ring
      omega
    calc exSeq pl total (min (k * pl) total) (m + 1)
        = exSeq pl total (min (k * pl) total + min pl (total - min (k * pl) total)) m := rfl
      _ = exSeq pl total (min ((k + 1) * pl) total) m := by rw [hstep]
      _ = min ((k + 1 + m) * pl) total := ih (k + 1)
      _ = min ((k + (m + 1)) * pl) total := by ring_nf

/-! ## Claim C7 -/

/-- C7, confirmed: whenever the layout generator succeeds with a positive
piece length, positive total and the piece count of the manifest
(`ceil(total / piece_length)`), the segment lengths of every piece sum to
that piece's expected length — `piece_length` for every piece but the last,
the remainder for the last; and on the concrete input of the claim
(piece length 8, total 20, files a of 5 and b of 15 bytes) the generated
map is piece 0 = (a,0,5),(b,0,3); piece 1 = (b,3,8); piece 2 = (b,11,4). -/
theorem piece_layout_sum :
    (∀ (fuel P tdl pl : Nat) (file_vec : List PieceLocationMap)
        (mapping : List (List PieceLocationMap)),
      genereate_piece_mapping fuel P tdl pl file_vec = some mapping →
      0 < pl → 0 < tdl → P = (tdl + pl - 1) / pl →
      ∀ i, i < P →
        sumLens (mapping.getD i []) =
          if i = P - 1 then tdl - pl * (P - 1) else pl) ∧
    genereate_piece_mapping 100 3 20 8 (mkFileVec [("a", 5), ("b", 15)]) =
      some [[⟨"a", 0, 5⟩, ⟨"b", 0, 3⟩], [⟨"b", 3, 8⟩], [⟨"b", 11, 4⟩]] := by
  constructor
  · intro fuel P tdl pl file_vec mapping h hpl htdl hP i hi
    rcases file_vec with _ | ⟨f, fs⟩
    · simp [genereate_piece_mapping] at h
    · simp only [genereate_piece_mapping] at h
      obtain ⟨-, -, hmain⟩ := layoutOuter_spec fuel pl tdl P f fs 0 0 [] mapping h
      have hsum := hmain i hi
      have hz : exSeq pl tdl 0 i = min (i * pl) tdl := by
        have := exSeq_min pl tdl i 0
        simpa using this
      rw [hz] at hsum
      simp only [List.length_nil, Nat.zero_add] at hsum
      have hceil1 : P * pl ≤ tdl + pl - 1 := by
        rw [hP]; exact Nat.div_mul_le_self _ _
      have hceil2 : tdl + pl - 1 < P * pl + pl := by
        have hdm := Nat.div_add_mod (tdl + pl - 1) pl
        have hmod := Nat.mod_lt (tdl + pl - 1) hpl
        have hq : P * pl = pl * ((tdl + pl - 1) / pl) := by rw [hP]; ring
        omega
      by_cases hlast : i = P - 1
      · rw [if_pos hlast]
        subst hlast
        have hmulsub : (P - 1) * pl + pl = P * pl := by
          cases P with
          | zero => omega
          | succ q => simp [Nat.succ_sub_one]; ring
        have hcomm : pl * (P - 1) = (P - 1) * pl := by ring
        rw [hcomm]
        omega
      · rw [if_neg hlast]
        have hle : (i + 1) * pl ≤ (P - 1) * pl :=
          Nat.mul_le_mul_right _ (by omega)
        have hmulsub : (P - 1) * pl + pl = P * pl := by
          cases P with
          | zero => omega
          | succ q => simp [Nat.succ_sub_one]; ring
        have hmul1 : (i + 1) * pl = i * pl + pl := by ring
        omega
  · decide

/-- Witness for C7: the general sum property applied to the concrete
example — piece 0 and piece 2 of the three-piece layout. -/
theorem piece_layout_sum_witness :
    sumLens ([[(⟨"a", 0, 5⟩ : PieceLocationMap), ⟨"b", 0, 3⟩], [⟨"b", 3, 8⟩],
        [⟨"b", 11, 4⟩]].getD 0 []) =
      (if (0 : Nat) = 3 - 1 then 20 - 8 * (3 - 1) else 8) ∧
    sumLens ([[(⟨"a", 0, 5⟩ : PieceLocationMap), ⟨"b", 0, 3⟩], [⟨"b", 3, 8⟩],
        [⟨"b", 11, 4⟩]].getD 2 []) =
      (if (2 : Nat) = 3 - 1 then 20 - 8 * (3 - 1) else 8) :=
  ⟨piece_layout_sum.1 100 3 20 8 (mkFileVec [("a", 5), ("b", 15)])
     [[⟨"a", 0, 5⟩, ⟨"b", 0, 3⟩], [⟨"b", 3, 8⟩], [⟨"b", 11, 4⟩]]
     (by decide) (by decide) (by decide) (by decide) 0 (by decide),
   piece_layout_sum.1 100 3 20 8 (mkFileVec [("a", 5), ("b", 15)])
     [[⟨"a", 0, 5⟩, ⟨"b", 0, 3⟩], [⟨"b", 3, 8⟩], [⟨"b", 11, 4⟩]]
     (by decide) (by decide) (by decide) (by decide) 2 (by decide)⟩

/-! ## Comparator lemmas -/

theorem natCompare_swap (a b : Nat) : compare b a = (compare a b).swap := by
  rcases Nat.lt_trichotomy a b with h | h | h
  · rw [Nat.compare_eq_lt.mpr h, Nat.compare_eq_gt.mpr h]; rfl
  · subst h; rw [Nat.compare_eq_eq.mpr rfl]; rfl
  · rw [Nat.compare_eq_gt.mpr h, Nat.compare_eq_lt.mpr h]; rfl

theorem cmpBytes_swap : (x y : List Nat) → cmpBytes y x = (cmpBytes x y).swap
  | [], [] => rfl
  | [], _ :: _ => rfl
  | _ :: _, [] => rfl
  | a :: as, b :: bs => by
    simp only [cmpBytes]
    rw [natCompare_swap a b]
    cases compare a b with
    | lt => rfl
    | gt => rfl
    | eq => simpa using cmpBytes_swap as bs

mutual

theorem benCompare_swap : (a b : BencodeType) → benCompare b a = (benCompare a b).swap
  | .Bstring x, .Bstring y => cmpBytes_swap x y
  | .Bint x, .Bint y => natCompare_swap x y
  | .Bvec x, .Bvec y => benCompareList_swap x y
  | .Bmap x, .Bmap y => benComparePairs_swap x y
  | .Bstring _, .Bvec _ => rfl
  | .Bstring _, .Bmap _ => rfl
  | .Bstring _, .Bint _ => rfl
  | .Bvec _, .Bstring _ => rfl
  | .Bvec _, .Bmap _ => rfl
  | .Bvec _, .Bint _ => rfl
  | .Bmap _, .Bstring _ => rfl
  | .Bmap _, .Bvec _ => rfl
  | .Bmap _, .Bint _ => rfl
  | .Bint _, .Bstring _ => rfl
  | .Bint _, .Bvec _ => rfl
  | .Bint _, .Bmap _ => rfl

theorem benCompareList_swap :
    (x y : List BencodeType) → benCompareList y x = (benCompareList x y).swap
  | [], [] => rfl
  | [], _ :: _ => rfl
  | _ :: _, [] => rfl
  | a :: as, b :: bs => by
    simp only [benCompareList]
    rw [benCompare_swap a b]
    cases benCompare a b with
    | lt => rfl
    | gt => rfl
    | eq => simpa using benCompareList_swap as bs

theorem benComparePairs_swap :
    (x y : List (BencodeType × BencodeType)) →
      benComparePairs y x = (benComparePairs x y).swap
  | [], [] => rfl
  | [], _ :: _ => rfl
  | _ :: _, [] => rfl
  | (ka, va) :: as, (kb, vb) :: bs => by
    simp only [benComparePairs]
    rw [benCompare_swap ka kb]
    cases benCompare ka kb with
    | lt => rfl
    | gt => rfl
    | eq =>
      simp only [Ordering.swap]
      rw [benCompare_swap va vb]
      cases benCompare va vb with
      | lt => rfl
      | gt => rfl
      | eq => simpa using benComparePairs_swap as bs

end

theorem benCompare_lt_to_gt (a b : BencodeType) (h : benCompare a b = .lt) :
    benCompare b a = .gt := by
  rw [benCompare_swap a b, h]; rfl

/-! ## BTreeMap insertion lemmas -/

theorem chainLtB_val_irrel (k : BencodeType) (v v2 : BencodeType)
    (rest : List (BencodeType × BencodeType)) :
    chainLtB ((k, v) :: rest) = chainLtB ((k, v2) :: rest) := by
  cases rest with
  | nil => rfl
  | cons p ps => rfl

theorem ordering_beq_to_eq (o o2 : Ordering) (h : (o == o2) = true) : o = o2 := by
  cases o <;> cases o2 <;> first | rfl | exact absurd h (by decide)

theorem chainLt_cons_of (k2 v2 : BencodeType) (X : List (BencodeType × BencodeType))
    (hhead : ∀ q, X.head? = some q → benCompare k2 q.1 = .lt)
    (hX : chainLtB X = true) : chainLtB ((k2, v2) :: X) = true := by
  cases X with
  | nil => rfl
  | cons q X2 =>
    have := hhead q rfl
    simp only [chainLtB]
    rw [show q = (q.1, q.2) from rfl, this]
    simp only [Bool.and_eq_true]
    exact ⟨rfl, hX⟩

theorem btreeInsert_head (k v : BencodeType) (rest : List (BencodeType × BencodeType)) :
    ∀ p, (btreeInsert k v rest).head? = some p →
      p.1 = k ∨ ∃ q, rest.head? = some q ∧ p.1 = q.1 := by
  cases rest with
  | nil =>
    intro p hp
    simp only [btreeInsert, List.head?, Option.some.injEq] at hp
    left
    rw [← hp]
  | cons q r2 =>
    intro p hp
    rcases q with ⟨k3, v3⟩
    simp only [btreeInsert] at hp
    cases hc : benCompare k k3 <;> rw [hc] at hp <;>
      simp only [List.head?, Option.some.injEq] at hp
    · left; rw [← hp]
    · right; exact ⟨(k3, v3), rfl, by rw [← hp]⟩
    · right; exact ⟨(k3, v3), rfl, by rw [← hp]⟩

theorem btreeInsert_chainLt (k v : BencodeType) :
    ∀ (m : List (BencodeType × BencodeType)), chainLtB m = true →
      chainLtB (btreeInsert k v m) = true := by
  intro m
  induction m with
  | nil => intro _; rfl
  | cons q rest ih =>
    intro hm
    rcases q with ⟨k2, v2⟩
    have htail : chainLtB rest = true := by
      cases rest with
      | nil => rfl
      | cons q2 r2 =>
        simp only [chainLtB] at hm
        rw [show q2 = (q2.1, q2.2) from rfl] at hm ⊢
        simp only [Bool.and_eq_true] at hm
        exact hm.2
    simp only [btreeInsert]
    cases hc : benCompare k k2 with
    | lt =>
      have : chainLtB ((k, v) :: (k2, v2) :: rest) = true := by
        simp only [chainLtB, hc]
        simp only [Bool.and_eq_true]
        exact ⟨rfl, hm⟩
      simpa using this
    | eq => rw [chainLtB_val_irrel k2 v v2]; exact hm
    | gt =>
      have hk2k : benCompare k2 k = .lt := by
        rw [benCompare_swap, hc]; rfl
      apply chainLt_cons_of
      · intro p hp
        rcases btreeInsert_head k v rest p hp with h | ⟨q3, hq3, hpq⟩
        · rw [h]; exact hk2k
        · rw [hpq]
          cases rest with
          | nil => simp at hq3
          | cons q4 r4 =>
            simp only [List.head?, Option.some.injEq] at hq3
            rw [← hq3]
            simp only [chainLtB] at hm
            rw [show q4 = (q4.1, q4.2) from rfl] at hm
            simp only [Bool.and_eq_true] at hm
            exact ordering_beq_to_eq _ _ hm.1
      · exact ih htail

theorem btreeInsert_pairsSorted (k v : BencodeType)
    (hk : mapsSortedB k = true) (hv : mapsSortedB v = true) :
    ∀ (m : List (BencodeType × BencodeType)), mapsSortedPairsB m = true →
      mapsSortedPairsB (btreeInsert k v m) = true := by
  intro m
  induction m with
  | nil =>
    intro _
    simp [btreeInsert, mapsSortedPairsB, hk, hv]
  | cons q rest ih =>
    intro hm
    rcases q with ⟨k2, v2⟩
    simp only [mapsSortedPairsB, Bool.and_eq_true] at hm
    obtain ⟨⟨hk2, hv2⟩, hrest⟩ := hm
    simp only [btreeInsert]
    cases hc : benCompare k k2 with
    | lt => simp [mapsSortedPairsB, hk, hv, hk2, hv2, hrest]
    | eq => simp [mapsSortedPairsB, hk2, hv, hrest]
    | gt => simp [mapsSortedPairsB, hk2, hv2, ih hrest]

theorem mapsSortedListB_forall (l : List BencodeType) :
    mapsSortedListB l = true ↔ ∀ e ∈ l, mapsSortedB e = true := by
  induction l with
  | nil => simp [mapsSortedListB]
  | cons e es ih => simp [mapsSortedListB, Bool.and_eq_true, ih]

/-! ## Every decoded dictionary is sorted -/

theorem decodeBen_sorted_all (fuel : Nat) :
    (∀ data v n, decodeBen fuel data = some (v, n) → mapsSortedB v = true) ∧
    (∀ rem idx acc out i,
      (∀ e ∈ acc, mapsSortedB e = true) →
      decodeListLoop fuel rem idx acc = some (out, i) →
      ∀ e ∈ out, mapsSortedB e = true) ∧
    (∀ rem idx flag acc out i,
      chainLtB acc = true → mapsSortedPairsB acc = true →
      decodeDictLoop fuel rem idx flag acc = some (out, i) →
      chainLtB out = true ∧ mapsSortedPairsB out = true) := by
  induction fuel with
  | zero =>
    refine ⟨?_, ?_, ?_⟩
    · intro data v n h; simp [decodeBen] at h
    · intro rem idx acc out i _ h; simp [decodeListLoop] at h
    · intro rem idx flag acc out i _ _ h; simp [decodeDictLoop] at h
  | succ f ih =>
    obtain ⟨ihB, ihL, ihD⟩ := ih
    refine ⟨?_, ?_, ?_⟩
    · intro data v n h
      rw [decodeBen] at h
      split at h
      · simp at h
      · split at h
        · split at h
          · simp at h
          · split at h
            · simp at h
            · split at h
              · simp only [Option.some.injEq, Prod.mk.injEq] at h
                rw [← h.1]; rfl
              · simp at h
        · split at h
          · split at h
            · simp at h
            · split at h
              · simp at h
              · simp only [Option.some.injEq, Prod.mk.injEq] at h
                rw [← h.1]; rfl
          · split at h
            · split at h
              · simp at h
              next ben_vec idx2 hloop =>
                simp only [Option.some.injEq, Prod.mk.injEq] at h
                rw [← h.1]
                have hall := ihL _ _ _ _ _ (by simp) hloop
                simp only [mapsSortedB]
                exact (mapsSortedListB_forall ben_vec).mpr hall
            · split at h
              · split at h
                · simp at h
                next ben_map idx2 hloop =>
                  obtain ⟨h1, h2⟩ := ihD _ _ _ _ _ _ (by rfl) (by rfl) hloop
                  simp only [Option.some.injEq, Prod.mk.injEq] at h
                  rw [← h.1]
                  simp [mapsSortedB, h1, h2]
              · simp at h
    · intro rem idx acc out i hacc h
      rw [decodeListLoop] at h
      split at h
      · simp at h
      · split at h
        · simp only [Option.some.injEq, Prod.mk.injEq] at h
          intro e he
          exact hacc e (by rw [h.1]; exact he)
        · split at h
          · simp at h
          next elem c2 hdec =>
            refine ihL _ _ _ _ _ ?_ h
            intro e he
            rcases List.mem_append.mp he with h2 | h2
            · exact hacc e h2
            · rw [List.mem_singleton.mp h2]
              exact ihB _ _ _ hdec
    · intro rem idx flag acc out i hchain hpairs h
      rw [decodeDictLoop] at h
      split at h
      · simp at h
      · split at h
        · simp only [Option.some.injEq, Prod.mk.injEq] at h
          rw [← h.1]
          exact ⟨hchain, hpairs⟩
        · split at h
          · simp at h
          next key kc hkey =>
            split at h
            · simp at h
            next value vc hval =>
              exact ihD _ _ _ _ _ _ (btreeInsert_chainLt _ _ _ hchain)
                (btreeInsert_pairsSorted _ _ (ihB _ _ _ hkey) (ihB _ _ _ hval) _ hpairs) h

/-! ## Claim C6 -/

/-- C6, corrected: the decoder does NOT check dictionary key order and never
fails because of it; instead, every decoded value has all of its
dictionaries strictly sorted (and deduplicated) by the derived order,
because the pairs are inserted into a `BTreeMap` whatever order the input
presented them in. -/
theorem decoded_dictionaries_are_sorted (fuel : Nat) (data : List Nat)
    (v : BencodeType) (n : Nat) (h : decodeBen fuel data = some (v, n)) :
    mapsSortedB v = true :=
  (decodeBen_sorted_all fuel).1 data v n h

/-- Witness for C6 (amended): the out-of-order input below decodes, and the
result is sorted. -/
theorem decoded_dictionaries_are_sorted_witness :
    decodeBen 100 [100, 49, 58, 98, 49, 58, 120, 49, 58, 97, 49, 58, 121, 101] =
      some (.Bmap [(.Bstring [97], .Bstring [121]), (.Bstring [98], .Bstring [120])], 14) ∧
    mapsSortedB (.Bmap [(.Bstring [97], .Bstring [121]),
      (.Bstring [98], .Bstring [120])]) = true :=
  ⟨rfl,
   decoded_dictionaries_are_sorted 100
     [100, 49, 58, 98, 49, 58, 120, 49, 58, 97, 49, 58, 121, 101]
     (.Bmap [(.Bstring [97], .Bstring [121]), (.Bstring [98], .Bstring [120])]) 14 rfl⟩

/-- Counterexample for C6 as stated: the input `d1:b1:x1:a1:ye` presents the
key b (byte 98) before the key a (byte 97) — not in strictly increasing
order — yet the decoder SUCCEEDS, returning the reordered dictionary, rather
than failing as the claim requires. -/
theorem unordered_keys_decode_succeeds :
    decodeBen 100 [100, 49, 58, 98, 49, 58, 120, 49, 58, 97, 49, 58, 121, 101] =
      some (.Bmap [(.Bstring [97], .Bstring [121]), (.Bstring [98], .Bstring [120])], 14) ∧
    cmpBytes [98] [97] = .gt := ⟨rfl, rfl⟩

/-! ## Fuel monotonicity of the decoder -/

theorem decode_mono_all (fuel : Nat) :
    (∀ data r, decodeBen fuel data = some r → decodeBen (fuel + 1) data = some r) ∧
    (∀ rem idx acc r, decodeListLoop fuel rem idx acc = some r →
      decodeListLoop (fuel + 1) rem idx acc = some r) ∧
    (∀ rem idx flag acc r, decodeDictLoop fuel rem idx flag acc = some r →
      decodeDictLoop (fuel + 1) rem idx flag acc = some r) := by
  induction fuel with
  | zero =>
    refine ⟨?_, ?_, ?_⟩
    · intro data r h; simp [decodeBen] at h
    · intro rem idx acc r h; simp [decodeListLoop] at h
    · intro rem idx flag acc r h; simp [decodeDictLoop] at h
  | succ f ih =>
    obtain ⟨ihB, ihL, ihD⟩ := ih
    refine ⟨?_, ?_, ?_⟩
    · intro data r h
      rw [decodeBen] at h ⊢
      cases heq : data.head? with
      | none => rw [heq] at h; simp at h
      | some c =>
        simp only [heq] at h ⊢
        by_cases hd : isDigitByte c
        · rw [if_pos hd] at h ⊢; exact h
        · rw [if_neg hd] at h ⊢
          by_cases hi : c = 105
          · rw [if_pos hi] at h ⊢; exact h
          · rw [if_neg hi] at h ⊢
            by_cases hl : c = 108
            · rw [if_pos hl] at h ⊢
              rcases hlo : decodeListLoop f data 0 [] with _ | ⟨vec, idx⟩
              · rw [hlo] at h; simp at h
              · rw [hlo] at h
                rw [ihL _ _ _ _ hlo]
                exact h
            · rw [if_neg hl] at h ⊢
              by_cases hd2 : c = 100
              · rw [if_pos hd2] at h ⊢
                rcases hlo : decodeDictLoop f data 0 true [] with _ | ⟨mp, idx⟩
                · rw [hlo] at h; simp at h
                · rw [hlo] at h
                  rw [ihD _ _ _ _ _ hlo]
                  exact h
              · rw [if_neg hd2] at h ⊢; exact h
    · intro rem idx acc r h
      rw [decodeListLoop] at h ⊢
      cases heq : rem.head? with
      | none => rw [heq] at h; simp at h
      | some b =>
        simp only [heq] at h ⊢
        by_cases hb : b = 101
        · rw [if_pos hb] at h ⊢; exact h
        · rw [if_neg hb] at h ⊢
          rcases hdec : decodeBen f (rem.drop (if acc.isEmpty then 1 else 0))
            with _ | ⟨elem, c2⟩
          · rw [hdec] at h; simp at h
          · rw [hdec] at h
            rw [ihB _ _ hdec]
            exact ihL _ _ _ _ h
    · intro rem idx flag acc r h
      rw [decodeDictLoop] at h ⊢
      cases heq : rem.head? with
      | none => rw [heq] at h; simp at h
      | some b =>
        simp only [heq] at h ⊢
        by_cases hb : b = 101
        · rw [if_pos hb] at h ⊢; exact h
        · rw [if_neg hb] at h ⊢
          rcases hkey : decodeBen f (rem.drop (if flag then 1 else 0))
            with _ | ⟨key, kc⟩
          · rw [hkey] at h; simp at h
          · rw [hkey] at h
            rw [ihB _ _ hkey]
            simp only at h ⊢
            rcases hval : decodeBen f (rem.drop ((if flag then 1 else 0) + kc))
              with _ | ⟨value, vc⟩
            · rw [hval] at h; simp at h
            · rw [hval] at h
              rw [ihB _ _ hval]
              exact ihD _ _ _ _ _ h

theorem decodeBen_mono_le (f g : Nat) (hfg : f ≤ g) (data : List Nat)
    (r : BencodeType × Nat) (h : decodeBen f data = some r) :
    decodeBen g data = some r := by
  induction g with
  | zero =>
    have hf : f = 0 := by omega
    subst hf; exact h
  | succ n ihg =>
    rcases Nat.lt_or_ge f (n + 1) with hlt | hge
    · exact (decode_mono_all n).1 data r (ihg (by omega))
    · have hf : f = n + 1 := by omega
      subst hf; exact h

/-! ## Decimal digit lemmas -/

theorem natToDecBytes_ne_nil (n : Nat) : natToDecBytes n ≠ [] := by
  unfold natToDecBytes
  by_cases h : n = 0
  · simp [h]
  · simp only [h, if_false]
    intro hc
    rw [List.map_eq_nil_iff, List.reverse_eq_nil_iff] at hc
    exact h ((Nat.digits_eq_nil_iff_eq_zero).mp hc)

theorem natToDecBytes_digits (n : Nat) : ∀ b ∈ natToDecBytes n, isDigitByte b = true := by
  unfold natToDecBytes
  by_cases h : n = 0
  · simp [h]; decide
  · simp only [h, if_false]
    intro b hb
    rw [List.mem_map] at hb
    obtain ⟨d, hd, rfl⟩ := hb
    rw [List.mem_reverse] at hd
    have hlt : d < 10 := Nat.digits_lt_base (by omega) hd
    simp only [isDigitByte, Bool.and_eq_true, decide_eq_true_eq]
    omega

theorem foldl_map48 (l : List Nat) :
    ∀ a, (l.map (· + 48)).foldl (fun acc b => 10 * acc + (b - 48)) a =
      l.foldl (fun acc d => 10 * acc + d) a := by
  induction l with
  | nil => intro a; rfl
  | cons d ds ih =>
    intro a
    simp only [List.map_cons, List.foldl_cons, Nat.add_sub_cancel]
    exact ih _

theorem foldl_reverse_ofDigits (l : List Nat) :
    ∀ a, (l.reverse).foldl (fun acc d => 10 * acc + d) a =
      a * 10 ^ l.length + Nat.ofDigits 10 l := by
  induction l with
  | nil => intro a; simp [Nat.ofDigits]
  | cons d ds ih =>
    intro a
    simp only [List.reverse_cons, List.foldl_append, List.foldl_cons, List.foldl_nil]
    rw [ih]
    rw [Nat.ofDigits_cons]
    simp only [List.length_cons, pow_succ]
    ring

theorem digitsVal_natToDecBytes (n : Nat) : digitsVal (natToDecBytes n) = n := by
  unfold natToDecBytes digitsVal
  by_cases h : n = 0
  · simp [h]
  · rw [if_neg h, foldl_map48, foldl_reverse_ofDigits]
    simpa using Nat.ofDigits_digits 10 n

theorem parseU64_natToDecBytes (n : Nat) (hn : n < 2 ^ 64) :
    parseU64 (natToDecBytes n) = some n := by
  have hd := natToDecBytes_digits n
  have hne := natToDecBytes_ne_nil n
  have hval := digitsVal_natToDecBytes n
  have hhead : ¬ (natToDecBytes n).head? = some 43 := by
    cases hl : natToDecBytes n with
    | nil => simp
    | cons b t =>
      have hb : isDigitByte b = true := hd b (by rw [hl]; exact List.mem_cons_self _ _)
      simp only [List.head?, Option.some.injEq]
      intro hc
      subst hc
      simp [isDigitByte] at hb
  unfold parseU64
  simp only [hhead, if_false]
  rw [if_pos]
  · rw [hval]
  · simp only [Bool.and_eq_true, List.all_eq_true, decide_eq_true_eq]
    refine ⟨⟨?_, fun b hb => hd b hb⟩, by rw [hval]; exact hn⟩
    cases hl : natToDecBytes n with
    | nil => exact absurd hl hne
    | cons b t => rfl

/-! ## takeUntilByte -/

theorem takeUntilByte_spec (stop : Nat) (pre : List Nat) :
    ∀ (rest2 : List Nat), (∀ b ∈ pre, b ≠ stop) →
      takeUntilByte stop (pre ++ stop :: rest2) = some pre := by
  induction pre with
  | nil => intro rest2 _; simp [takeUntilByte]
  | cons b t ih =>
    intro rest2 hb
    simp only [List.cons_append, takeUntilByte]
    rw [if_neg (hb b (List.mem_cons_self _ _))]
    rw [show t.append (stop :: rest2) = t ++ stop :: rest2 from rfl,
      ih rest2 (fun x hx => hb x (List.mem_cons_of_mem _ hx))]

/-! ## Heads of canonical encodings -/

theorem encodeB_ne_nil (v : BencodeType) : encodeB v ≠ [] := by
  cases v with
  | Bstring s =>
    simp only [encodeB]
    intro hc
    rcases List.append_eq_nil.mp hc with ⟨h1, -⟩
    exact natToDecBytes_ne_nil _ h1
  | Bint n => simp [encodeB]
  | Bvec l => simp [encodeB]
  | Bmap m => simp [encodeB]

theorem encodeB_head_ne_e (v : BencodeType) :
    ∀ b, (encodeB v).head? = some b → ¬ b = 101 := by
  cases v with
  | Bstring s =>
    intro b hb
    simp only [encodeB] at hb
    cases hl : natToDecBytes s.length with
    | nil => exact absurd hl (natToDecBytes_ne_nil _)
    | cons d t =>
      rw [hl] at hb
      simp only [List.cons_append, List.head?, Option.some.injEq] at hb
      subst hb
      have hdig := natToDecBytes_digits s.length d (by rw [hl]; exact List.mem_cons_self _ _)
      simp only [isDigitByte, Bool.and_eq_true, decide_eq_true_eq] at hdig
      omega
  | Bint n => intro b hb; simp only [encodeB, List.head?, Option.some.injEq] at hb; omega
  | Bvec l => intro b hb; simp only [encodeB, List.head?, Option.some.injEq] at hb; omega
  | Bmap m => intro b hb; simp only [encodeB, List.head?, Option.some.injEq] at hb; omega

/-! ## Canonicity conversions -/

theorem canonListB_forall (l : List BencodeType) :
    canonListB l = true ↔ ∀ e ∈ l, CanonicalB e = true := by
  induction l with
  | nil => simp [canonListB]
  | cons e es ih => simp [canonListB, Bool.and_eq_true, ih]

theorem canonPairsB_forall (ps : List (BencodeType × BencodeType)) :
    canonPairsB ps = true ↔
      ∀ k w, (k, w) ∈ ps → CanonicalB k = true ∧ CanonicalB w = true := by
  induction ps with
  | nil => simp [canonPairsB]
  | cons p ps2 ih =>
    rcases p with ⟨k, w⟩
    simp only [canonPairsB, Bool.and_eq_true, ih]
    constructor
    · rintro ⟨⟨hk, hw⟩, hrest⟩ k2 w2 hm
      rcases List.mem_cons.mp hm with he | hm2
      · rw [Prod.mk.injEq] at he
        rw [he.1, he.2]
        exact ⟨hk, hw⟩
      · exact hrest k2 w2 hm2
    · intro h
      obtain ⟨hk, hw⟩ := h k w (List.mem_cons_self _ _)
      exact ⟨⟨hk, hw⟩, fun k2 w2 hm => h k2 w2 (List.mem_cons_of_mem _ hm)⟩

theorem keyLtAllB_forall (k : BencodeType) (ps : List (BencodeType × BencodeType)) :
    keyLtAllB k ps = true ↔ ∀ p ∈ ps, benCompare k p.1 = .lt := by
  induction ps with
  | nil => simp [keyLtAllB]
  | cons p ps2 ih =>
    rcases p with ⟨k2, v2⟩
    simp only [keyLtAllB, Bool.and_eq_true, ih]
    constructor
    · rintro ⟨h1, h2⟩ p hp
      rcases List.mem_cons.mp hp with he | hp2
      · rw [he]
        exact ordering_beq_to_eq _ _ h1
      · exact h2 p hp2
    · intro h
      refine ⟨?_, fun p hp => h p (List.mem_cons_of_mem _ hp)⟩
      have h2 := h (k2, v2) (List.mem_cons_self _ _)
      simp only at h2
      rw [h2]; rfl

theorem btreeInsert_append (k v : BencodeType) :
    ∀ m : List (BencodeType × BencodeType),
      (∀ p ∈ m, benCompare p.1 k = .lt) → btreeInsert k v m = m ++ [(k, v)] := by
  intro m
  induction m with
  | nil => intro _; rfl
  | cons q rest ih =>
    intro h
    rcases q with ⟨k2, v2⟩
    have h2 : benCompare k2 k = .lt := by
      have := h (k2, v2) (List.mem_cons_self _ _)
      simpa using this
    have hg : benCompare k k2 = .gt := benCompare_lt_to_gt _ _ h2
    simp only [btreeInsert, hg]
    rw [ih (fun p hp => h p (List.mem_cons_of_mem _ hp))]
    simp

/-! ## Decoding a canonical encoding: atoms -/

theorem decodeBen_string (s : List Nat) (hlossy : utf8Lossy s = s)
    (hlen : s.length < 2 ^ 64) (g : Nat) (rest : List Nat) (hg : 0 < g) :
    decodeBen g (encodeB (.Bstring s) ++ rest) =
      some (.Bstring s, (encodeB (.Bstring s)).length) := by
  obtain ⟨g2, rfl⟩ : ∃ g2, g = g2 + 1 := ⟨g - 1, by omega⟩
  have hD := natToDecBytes_digits s.length
  obtain ⟨d, t, hdt⟩ : ∃ d t, natToDecBytes s.length = d :: t := by
    cases hl : natToDecBytes s.length with
    | nil => exact absurd hl (natToDecBytes_ne_nil _)
    | cons d t => exact ⟨d, t, rfl⟩
  have hdata : encodeB (.Bstring s) ++ rest = d :: (t ++ 58 :: (s ++ rest)) := by
    simp [encodeB, hdt]
  rw [decodeBen, hdata]
  simp only [List.head?]
  have hdig : isDigitByte d = true := hD d (by rw [hdt]; exact List.mem_cons_self _ _)
  rw [if_pos hdig]
  have htake : takeUntilByte 58 (d :: (t ++ 58 :: (s ++ rest))) = some (d :: t) := by
    have h1 : (d :: t) ++ 58 :: (s ++ rest) = d :: (t ++ 58 :: (s ++ rest)) := by simp
    rw [← h1]
    apply takeUntilByte_spec
    intro b hb
    have hbd := hD b (by rw [hdt]; exact hb)
    simp only [isDigitByte, Bool.and_eq_true, decide_eq_true_eq] at hbd
    omega
  rw [htake]
  simp only
  have hparse : parseU64 (d :: t) = some s.length := by
    rw [← hdt]; exact parseU64_natToDecBytes _ hlen
  rw [hparse]
  simp only
  rw [if_pos (by simp; omega)]
  have hdrop : (d :: (t ++ 58 :: (s ++ rest))).drop ((d :: t).length + 1) = s ++ rest := by
    have h2 : d :: (t ++ 58 :: (s ++ rest)) = ((d :: t) ++ [58]) ++ (s ++ rest) := by simp
    rw [h2, show (d :: t).length + 1 = ((d :: t) ++ [58]).length by simp]
    exact List.drop_left _ _
  rw [hdrop, List.take_left, hlossy]
  have hlen2 : (encodeB (.Bstring s)).length = s.length + (d :: t).length + 1 := by
    simp [encodeB, hdt]
    omega
  rw [hlen2]

theorem decodeBen_int (n : Nat) (hn : n < 2 ^ 64) (g : Nat) (rest : List Nat)
    (hg : 0 < g) :
    decodeBen g (encodeB (.Bint n) ++ rest) = some (.Bint n, (encodeB (.Bint n)).length) := by
  obtain ⟨g2, rfl⟩ : ∃ g2, g = g2 + 1 := ⟨g - 1, by omega⟩
  have hdata : encodeB (.Bint n) ++ rest = 105 :: (natToDecBytes n ++ 101 :: rest) := by
    simp [encodeB]
  rw [decodeBen, hdata]
  simp only [List.head?]
  rw [if_neg (by decide), if_pos trivial]
  simp only [List.tail_cons]
  have htake : takeUntilByte 101 (natToDecBytes n ++ 101 :: rest) = some (natToDecBytes n) := by
    apply takeUntilByte_spec
    intro b hb
    have hbd := natToDecBytes_digits n b hb
    simp only [isDigitByte, Bool.and_eq_true, decide_eq_true_eq] at hbd
    omega
  rw [htake]
  simp only
  rw [parseU64_natToDecBytes n hn]
  simp only
  have hlen2 : (encodeB (.Bint n)).length = (natToDecBytes n).length + 2 := by
    simp [encodeB]
  rw [hlen2]

/-! ## Decoding a canonical encoding: the loops -/

theorem decodeListLoop_encodeB (es : List BencodeType)
    (IH : ∀ e ∈ es, ∀ (g : Nat) (r2 : List Nat), benFuel e ≤ g →
      decodeBen g (encodeB e ++ r2) = some (e, (encodeB e).length)) :
    ∀ (g : Nat) (rest : List Nat) (idx : Nat) (acc : List BencodeType),
      acc.isEmpty = false → benFuelList es ≤ g →
      decodeListLoop g (encListB es ++ 101 :: rest) idx acc =
        some (acc ++ es, idx + (encListB es).length) := by
  induction es with
  | nil =>
    intro g rest idx acc hne hg
    obtain ⟨g2, rfl⟩ : ∃ g2, g = g2 + 1 :=
      ⟨g - 1, by simp [benFuelList] at hg; omega⟩
    rw [decodeListLoop]
    simp [encListB]
  | cons e es2 ih =>
    intro g rest idx acc hne hg
    simp only [benFuelList] at hg
    obtain ⟨g2, rfl⟩ : ∃ g2, g = g2 + 1 := ⟨g - 1, by omega⟩
    obtain ⟨b, t, hbt⟩ : ∃ b t, encodeB e = b :: t := by
      cases hl : encodeB e with
      | nil => exact absurd hl (encodeB_ne_nil e)
      | cons b t => exact ⟨b, t, rfl⟩
    have hdata : encListB (e :: es2) ++ 101 :: rest =
        b :: (t ++ (encListB es2 ++ 101 :: rest)) := by
      simp [encListB, hbt]
    rw [decodeListLoop, hdata]
    simp only [List.head?]
    have hbne : ¬ b = 101 := encodeB_head_ne_e e b (by rw [hbt]; rfl)
    rw [if_neg hbne]
    simp only [hne, Bool.false_eq_true, if_false]
    have hback : b :: (t ++ (encListB es2 ++ 101 :: rest)) =
        encodeB e ++ (encListB es2 ++ 101 :: rest) := by
      simp [hbt]
    rw [List.drop_zero, hback,
      IH e (List.mem_cons_self _ _) g2 (encListB es2 ++ 101 :: rest) (by omega)]
    simp only
    rw [List.drop_left]
    rw [ih (fun e2 he2 g3 r3 hg3 => IH e2 (List.mem_cons_of_mem _ he2) g3 r3 hg3)
      g2 rest (idx + (encodeB e).length) (acc ++ [e]) (by simp) (by omega)]
    simp only [Option.some.injEq, Prod.mk.injEq]
    constructor
    · simp
    · simp [encListB]
      omega

theorem decodeDictLoop_encodeB (ps : List (BencodeType × BencodeType))
    (IHk : ∀ k w, (k, w) ∈ ps → ∀ (g : Nat) (r2 : List Nat), benFuel k ≤ g →
      decodeBen g (encodeB k ++ r2) = some (k, (encodeB k).length))
    (IHw : ∀ k w, (k, w) ∈ ps → ∀ (g : Nat) (r2 : List Nat), benFuel w ≤ g →
      decodeBen g (encodeB w ++ r2) = some (w, (encodeB w).length)) :
    ∀ (g : Nat) (rest : List Nat) (idx : Nat)
      (acc : List (BencodeType × BencodeType)),
      keysSortedB ps = true →
      (∀ q ∈ acc, ∀ p ∈ ps, benCompare q.1 p.1 = .lt) →
      benFuelPairs ps ≤ g →
      decodeDictLoop g (encPairsB ps ++ 101 :: rest) idx false acc =
        some (acc ++ ps, idx + (encPairsB ps).length) := by
  induction ps with
  | nil =>
    intro g rest idx acc hsort hlt hg
    obtain ⟨g2, rfl⟩ : ∃ g2, g = g2 + 1 :=
      ⟨g - 1, by simp [benFuelPairs] at hg; omega⟩
    rw [decodeDictLoop]
    simp [encPairsB]
  | cons p ps2 ih =>
    rcases p with ⟨k, w⟩
    intro g rest idx acc hsort hlt hg
    simp only [benFuelPairs] at hg
    obtain ⟨g2, rfl⟩ : ∃ g2, g = g2 + 1 := ⟨g - 1, by omega⟩
    simp only [keysSortedB, Bool.and_eq_true] at hsort
    obtain ⟨hklt, hsort2⟩ := hsort
    obtain ⟨b, t, hbt⟩ : ∃ b t, encodeB k = b :: t := by
      cases hl : encodeB k with
      | nil => exact absurd hl (encodeB_ne_nil k)
      | cons b t => exact ⟨b, t, rfl⟩
    have hdata : encPairsB ((k, w) :: ps2) ++ 101 :: rest =
        b :: (t ++ (encodeB w ++ (encPairsB ps2 ++ 101 :: rest))) := by
      simp [encPairsB, hbt]
    rw [decodeDictLoop, hdata]
    simp only [List.head?]
    have hbne : ¬ b = 101 := encodeB_head_ne_e k b (by rw [hbt]; rfl)
    rw [if_neg hbne]
    simp only [Bool.false_eq_true, if_false]
    have hback : b :: (t ++ (encodeB w ++ (encPairsB ps2 ++ 101 :: rest))) =
        encodeB k ++ (encodeB w ++ (encPairsB ps2 ++ 101 :: rest)) := by
      simp [hbt]
    rw [List.drop_zero, hback,
      IHk k w (List.mem_cons_self _ _) g2 _ (by omega)]
    simp only [Nat.zero_add]
    rw [List.drop_left,
      IHw k w (List.mem_cons_self _ _) g2 _ (by omega)]
    simp only
    have hdrop2 : (encodeB k ++ (encodeB w ++ (encPairsB ps2 ++ 101 :: rest))).drop
        ((encodeB k).length + (encodeB w).length) =
        encPairsB ps2 ++ 101 :: rest := by
      rw [show (encodeB k).length + (encodeB w).length =
          (encodeB k ++ encodeB w).length by simp]
      rw [show encodeB k ++ (encodeB w ++ (encPairsB ps2 ++ 101 :: rest)) =
          (encodeB k ++ encodeB w) ++ (encPairsB ps2 ++ 101 :: rest) by simp]
      exact List.drop_left _ _
    rw [hdrop2]
    have hins : btreeInsert k w acc = acc ++ [(k, w)] :=
      btreeInsert_append k w acc
        (fun q hq => hlt q hq (k, w) (List.mem_cons_self _ _))
    rw [hins]
    have hlt2 : ∀ q ∈ acc ++ [(k, w)], ∀ p ∈ ps2, benCompare q.1 p.1 = .lt := by
      intro q hq p hp
      rcases List.mem_append.mp hq with hq1 | hq2
      · exact hlt q hq1 p (List.mem_cons_of_mem _ hp)
      · rw [List.mem_singleton.mp hq2]
        exact (keyLtAllB_forall k ps2).mp hklt p hp
    simp only [Nat.add_zero]
    rw [ih (fun k2 w2 hm g3 r3 hg3 => IHk k2 w2 (List.mem_cons_of_mem _ hm) g3 r3 hg3)
      (fun k2 w2 hm g3 r3 hg3 => IHw k2 w2 (List.mem_cons_of_mem _ hm) g3 r3 hg3)
      g2 rest (idx + (encodeB k).length + (encodeB w).length) (acc ++ [(k, w)])
      hsort2 hlt2 (by omega)]
    simp only [Option.some.injEq, Prod.mk.injEq]
    constructor
    · simp
    · simp [encPairsB]
      omega

/-! ## Decoding a canonical encoding: the main induction -/

theorem decode_encodeB_size (N : Nat) :
    ∀ (v : BencodeType), sizeOf v ≤ N → CanonicalB v = true →
      ∀ (rest : List Nat),
        decodeBen (benFuel v) (encodeB v ++ rest) = some (v, (encodeB v).length) := by
  induction N with
  | zero =>
    intro v hv
    exfalso
    cases v <;> simp at hv
  | succ N ihN =>
    intro v hv hC rest
    cases v with
    | Bstring s =>
      simp only [CanonicalB, Bool.and_eq_true, beq_iff_eq, decide_eq_true_eq] at hC
      exact decodeBen_string s hC.1 hC.2 _ rest (by simp [benFuel])
    | Bint n =>
      simp only [CanonicalB, decide_eq_true_eq] at hC
      exact decodeBen_int n hC _ rest (by simp [benFuel])
    | Bvec l =>
      cases l with
      | nil => simp [CanonicalB, canonListB] at hC
      | cons e es =>
        simp only [CanonicalB, Bool.and_eq_true] at hC
        obtain ⟨-, hcl⟩ := hC
        have hall := (canonListB_forall (e :: es)).mp hcl
        have hsz : ∀ x ∈ e :: es, sizeOf x ≤ N := by
          intro x hx
          have h1 := List.sizeOf_lt_of_mem hx
          have h2 : sizeOf (BencodeType.Bvec (e :: es)) = 1 + sizeOf (e :: es) := by
            simp
          omega
        have hIH : ∀ x ∈ e :: es, ∀ (g : Nat) (r2 : List Nat), benFuel x ≤ g →
            decodeBen g (encodeB x ++ r2) = some (x, (encodeB x).length) :=
          fun x hx g r2 hg => decodeBen_mono_le (benFuel x) g hg _ _
            (ihN x (hsz x hx) (hall x hx) r2)
        rw [show benFuel (.Bvec (e :: es)) = benFuelList (e :: es) + 1 from by
          simp [benFuel]; omega]
        rw [decodeBen]
        have hdata : encodeB (.Bvec (e :: es)) ++ rest =
            108 :: (encListB (e :: es) ++ 101 :: rest) := by simp [encodeB]
        rw [hdata]
        simp only [List.head?]
        rw [if_neg (by decide), if_neg (by decide), if_pos trivial]
        rw [show benFuelList (e :: es) = (benFuel e + benFuelList es) + 1 from by
          simp [benFuelList]; omega]
        rw [decodeListLoop]
        simp only [List.head?]
        rw [if_neg (by decide)]
        simp only [show (if ([] : List BencodeType).isEmpty then 1 else 0) = 1 from rfl]
        simp only [List.drop_succ_cons, List.drop_zero]
        rw [show encListB (e :: es) ++ 101 :: rest =
            encodeB e ++ (encListB es ++ 101 :: rest) from by simp [encListB]]
        rw [hIH e (List.mem_cons_self _ _) (benFuel e + benFuelList es)
          (encListB es ++ 101 :: rest) (by omega)]
        simp only
        simp only [show ∀ c : Nat,
          (if ([] : List BencodeType).isEmpty then c + 1 else c) = c + 1 from
            fun c => rfl]
        rw [show (108 :: (encodeB e ++ (encListB es ++ 101 :: rest))).drop
            ((encodeB e).length + 1) = encListB es ++ 101 :: rest from by
          simp only [List.drop_succ_cons]
          exact List.drop_left _ _]
        simp only [List.nil_append]
        rw [decodeListLoop_encodeB es
          (fun e2 he2 g3 r3 hg3 => hIH e2 (List.mem_cons_of_mem _ he2) g3 r3 hg3)
          (benFuel e + benFuelList es) rest (0 + ((encodeB e).length + 1)) [e]
          rfl (by omega)]
        simp only [Option.some.injEq, Prod.mk.injEq]
        constructor
        · simp
        · simp [encodeB, encListB]
          omega
    | Bmap m =>
      cases m with
      | nil => simp [CanonicalB, keysSortedB, canonPairsB] at hC
      | cons p ps2 =>
        rcases p with ⟨k, w⟩
        simp only [CanonicalB, Bool.and_eq_true] at hC
        obtain ⟨⟨-, hsortm⟩, hcp⟩ := hC
        have hpairs := (canonPairsB_forall ((k, w) :: ps2)).mp hcp
        simp only [keysSortedB, Bool.and_eq_true] at hsortm
        obtain ⟨hklt, hsort2⟩ := hsortm
        have hsz : ∀ k2 w2, (k2, w2) ∈ (k, w) :: ps2 →
            sizeOf k2 ≤ N ∧ sizeOf w2 ≤ N := by
          intro k2 w2 hm
          have h1 := List.sizeOf_lt_of_mem hm
          have h2 : sizeOf (BencodeType.Bmap ((k, w) :: ps2)) =
              1 + sizeOf ((k, w) :: ps2) := by simp
          have h3 : sizeOf (k2, w2) = 1 + sizeOf k2 + sizeOf w2 := by simp
          omega
        have hIHk : ∀ k2 w2, (k2, w2) ∈ (k, w) :: ps2 →
            ∀ (g : Nat) (r2 : List Nat), benFuel k2 ≤ g →
            decodeBen g (encodeB k2 ++ r2) = some (k2, (encodeB k2).length) :=
          fun k2 w2 hm g r2 hg => decodeBen_mono_le (benFuel k2) g hg _ _
            (ihN k2 (hsz k2 w2 hm).1 (hpairs k2 w2 hm).1 r2)
        have hIHw : ∀ k2 w2, (k2, w2) ∈ (k, w) :: ps2 →
            ∀ (g : Nat) (r2 : List Nat), benFuel w2 ≤ g →
            decodeBen g (encodeB w2 ++ r2) = some (w2, (encodeB w2).length) :=
          fun k2 w2 hm g r2 hg => decodeBen_mono_le (benFuel w2) g hg _ _
            (ihN w2 (hsz k2 w2 hm).2 (hpairs k2 w2 hm).2 r2)
        rw [show benFuel (.Bmap ((k, w) :: ps2)) = benFuelPairs ((k, w) :: ps2) + 1 from by
          simp [benFuel]; omega]
        rw [decodeBen]
        have hdata : encodeB (.Bmap ((k, w) :: ps2)) ++ rest =
            100 :: (encPairsB ((k, w) :: ps2) ++ 101 :: rest) := by simp [encodeB]
        rw [hdata]
        simp only [List.head?]
        rw [if_neg (by decide), if_neg (by decide), if_neg (by decide), if_pos trivial]
        rw [show benFuelPairs ((k, w) :: ps2) =
            (benFuel k + benFuel w + benFuelPairs ps2) + 1 from by
          simp [benFuelPairs]; omega]
        rw [decodeDictLoop]
        simp only [List.head?]
        rw [if_neg (by decide)]
        simp only [if_true]
        simp only [List.drop_succ_cons, List.drop_zero]
        rw [show encPairsB ((k, w) :: ps2) ++ 101 :: rest =
            encodeB k ++ (encodeB w ++ (encPairsB ps2 ++ 101 :: rest)) from by
          simp [encPairsB]]
        rw [hIHk k w (List.mem_cons_self _ _)
          (benFuel k + benFuel w + benFuelPairs ps2) _ (by omega)]
        simp only
        rw [show (100 :: (encodeB k ++ (encodeB w ++ (encPairsB ps2 ++ 101 :: rest)))).drop
            (1 + (encodeB k).length) = encodeB w ++ (encPairsB ps2 ++ 101 :: rest) from by
          rw [Nat.add_comm]
          simp only [List.drop_succ_cons]
          exact List.drop_left _ _]
        rw [hIHw k w (List.mem_cons_self _ _)
          (benFuel k + benFuel w + benFuelPairs ps2) _ (by omega)]
        simp only
        rw [show (100 :: (encodeB k ++ (encodeB w ++ (encPairsB ps2 ++ 101 :: rest)))).drop
            (1 + (encodeB k).length + (encodeB w).length) =
            encPairsB ps2 ++ 101 :: rest from by
          rw [show 1 + (encodeB k).length + (encodeB w).length =
              ((encodeB k).length + (encodeB w).length) + 1 from by omega]
          simp only [List.drop_succ_cons]
          rw [show encodeB k ++ (encodeB w ++ (encPairsB ps2 ++ 101 :: rest)) =
              (encodeB k ++ encodeB w) ++ (encPairsB ps2 ++ 101 :: rest) from by simp]
          rw [show (encodeB k).length + (encodeB w).length =
              (encodeB k ++ encodeB w).length from by simp]
          exact List.drop_left _ _]
        rw [show btreeInsert k w [] = [(k, w)] from rfl]
        rw [decodeDictLoop_encodeB ps2
          (fun k2 w2 hm g3 r3 hg3 => hIHk k2 w2 (List.mem_cons_of_mem _ hm) g3 r3 hg3)
          (fun k2 w2 hm g3 r3 hg3 => hIHw k2 w2 (List.mem_cons_of_mem _ hm) g3 r3 hg3)
          (benFuel k + benFuel w + benFuelPairs ps2) rest
          (0 + 1 + (encodeB k).length + (encodeB w).length) [(k, w)]
          hsort2
          (by
            intro q hq p hp
            rw [List.mem_singleton.mp hq]
            exact (keyLtAllB_forall k ps2).mp hklt p hp)
          (by omega)]
        simp only [Option.some.injEq, Prod.mk.injEq]
        constructor
        · simp
        · simp [encodeB, encPairsB]
          omega

/-- **C1** (corrected). The round-trip that actually holds is
decode-after-encode: for every canonical bencode value `v` (strings already
in lossy-fixed UTF-8 form and shorter than `2^64`, integers below `2^64`,
lists and dictionaries nonempty, dictionary keys strictly increasing),
`recursive_bencode_decoder` applied to the canonical encoding of `v`, with
any trailing bytes, returns exactly `v` and consumes exactly the length of
the encoding. The spec direction `encode(decode(x)) = x` for every
well-formed input `x` fails, because `String::from_utf8_lossy` rewrites
non-UTF-8 string bytes (see the counterexample on the well-formed input
`1:\xff`). -/
theorem encodeB_decodeBen_roundtrip (v : BencodeType) (hC : CanonicalB v = true)
    (rest : List Nat) :
    decodeBen (benFuel v) (encodeB v ++ rest) = some (v, (encodeB v).length) :=
  decode_encodeB_size (sizeOf v) v le_rfl hC rest

/-- Witness for C1: the dictionary from the cow/spam example is canonical,
and decoding its canonical encoding returns it with full consumed count. -/
theorem encodeB_decodeBen_roundtrip_witness :
    CanonicalB cowSpamValue = true ∧
      decodeBen (benFuel cowSpamValue) (encodeB cowSpamValue ++ []) =
        some (cowSpamValue, (encodeB cowSpamValue).length) :=
  ⟨by decide, encodeB_decodeBen_roundtrip cowSpamValue (by decide) []⟩

/-- Counterexample to the original C1: the input `1:\xff` (bytes
`[49, 58, 255]`) is a well-formed bencoded string, the decoder accepts it
consuming all 3 bytes, yet re-encoding the decoded value yields
`3:\xef\xbf\xbd` (the lossy replacement), not the original bytes. -/
theorem decode_then_encode_not_identity :
    decodeBen 4 [49, 58, 255] = some (.Bstring [239, 191, 189], 3) ∧
      encodeB (.Bstring [239, 191, 189]) ≠ [49, 58, 255] := by
  refine ⟨rfl, fun h => ?_⟩
  have hlen := congrArg List.length h
  rw [show encodeB (.Bstring [239, 191, 189]) =
      natToDecBytes 3 ++ 58 :: [239, 191, 189] from rfl] at hlen
  have h1 : natToDecBytes 3 ≠ [] := natToDecBytes_ne_nil 3
  have h2 : 0 < (natToDecBytes 3).length := List.length_pos.mpr h1
  simp at hlen

end RustyBit
